import Mathlib

/-!
WAV reader, pre-emphasis filter and WAV writer of `audio_preemphasized.cpp`.

A shallow embedding of `src/audio_preemphasized.cpp`.

* Bytes are `Fin 256`; a file is a list of bytes; 16/32-bit fields are little-endian
  (the program copies them to and from memory on a little-endian host).
* `int16_t` samples are integers in `[-32768, 32767]`; `uint16_t`/`uint32_t` values are
  naturals, with `% 2 ^ 32` written out where the source arithmetic can wrap.
* `float` is IEEE-754 binary32 with round-to-nearest-even, every operation rounded once.
  A finite value is kept as an exact dyadic number `m * 2 ^ e`; the two zeros are
  identified (no operation of the program tells them apart).
* Behaviour the C++ standard leaves undefined (division by zero, out-of-bounds access,
  a float-to-integer conversion of a NaN) is an explicit outcome, never a value.
-/

/-! ## Bytes and little-endian fields -/

/-- One byte of a file or of memory. -/
abbrev Byte := Fin 256

/-- The byte holding the low eight bits of a natural number. -/
def byte (n : Nat) : Byte := ⟨n % 256, Nat.mod_lt n (by decide)⟩

/-- The two bytes of a 16-bit value in memory order (little-endian). -/
def le16 (v : Nat) : List Byte := [byte v, byte (v / 256)]

/-- The four bytes of a 32-bit value in memory order (little-endian). -/
def le32 (v : Nat) : List Byte := [byte v, byte (v / 256), byte (v / 65536), byte (v / 16777216)]

/-- The unsigned value of a little-endian byte string. -/
def leVal : List Byte → Nat
  | [] => 0
  | b :: bs => b.val + 256 * leVal bs

/-- `memcpy` of a `uint16_t` out of a byte buffer at offset `off`. -/
def u16At (bs : List Byte) (off : Nat) : Nat := leVal ((bs.drop off).take 2)

/-- `memcpy` of a `uint32_t` out of a byte buffer at offset `off`. -/
def u32At (bs : List Byte) (off : Nat) : Nat := leVal ((bs.drop off).take 4)

/-- The signed value of a 16-bit pattern (two's complement). -/
def toSigned16 (u : Nat) : Int := if u < 32768 then (u : Int) else (u : Int) - 65536

/-- The object representation of one `int16_t`: two bytes, little-endian two's complement. -/
def int16Bytes (z : Int) : List Byte := le16 (z % 65536).toNat

/-- The bytes of a `std::vector<int16_t>` as `reinterpret_cast<char*>(v.data())` sees them. -/
def samplesToBytes : List Int → List Byte
  | [] => []
  | z :: zs => int16Bytes z ++ samplesToBytes zs

/-- The `int16_t` values held by a byte buffer of even length. -/
def bytesToSamples : List Byte → List Int
  | b0 :: b1 :: bs => toSigned16 (b0.val + 256 * b1.val) :: bytesToSamples bs
  | _ => []

/-- The ASCII bytes of the tag "RIFF". -/
def tagRIFF : List Byte := [82, 73, 70, 70]

/-- The ASCII bytes of the tag "WAVE". -/
def tagWAVE : List Byte := [87, 65, 86, 69]

/-- The ASCII bytes of the tag "fmt " (with its trailing blank). -/
def tagFmt : List Byte := [102, 109, 116, 32]

/-- The ASCII bytes of the tag "data". -/
def tagData : List Byte := [100, 97, 116, 97]

/-! ## binary32 arithmetic -/

/-- The number of binary digits of `n`, by repeated halving; `fuel = n` always suffices. -/
def bitLength : Nat → Nat → Nat
  | 0, _ => 0
  | fuel + 1, n => if n = 0 then 0 else bitLength fuel (n / 2) + 1

/-- The quotient `a / 2 ^ s` rounded to the nearest integer, ties to the even one. -/
def roundShift (a s : Nat) : Nat :=
  let q := a / 2 ^ s
  let r := a % 2 ^ s
  if 2 ^ s < 2 * r ∨ (2 * r = 2 ^ s ∧ q % 2 = 1) then q + 1 else q

/-- A `float`: a finite dyadic value `m * 2 ^ e`, an infinity with its sign, or a NaN. -/
inductive F32 where
  | fin (m : Int) (e : Int)
  | inf (neg : Bool)
  | nan
  deriving DecidableEq, Repr

namespace F32

/-- The binary32 nearest to the exact value `m * 2 ^ e` (ties to even): 24 significant
bits, least exponent of the last place `-149`, overflow to an infinity from `2 ^ 128`. -/
def round (m e : Int) : F32 :=
  if m = 0 then fin 0 0
  else
    let a := m.natAbs
    let E : Int := max ((bitLength a a : Int) + e - 24) (-149)
    let q : Nat := if E ≤ e then a * 2 ^ (e - E).toNat else roundShift a (E - e).toNat
    if 104 < E ∨ (E = 104 ∧ 2 ^ 24 ≤ q) then inf (decide (m < 0))
    else fin (if m < 0 then -(q : Int) else (q : Int)) E

/-- The conversion `float cur = audioData[i]`: exact, an `int16_t` has at most 16 bits. -/
def ofInt16 (z : Int) : F32 := fin z 0

/-- The product `a * b` of two floats. -/
def mul : F32 → F32 → F32
  | fin m1 e1, fin m2 e2 => round (m1 * m2) (e1 + e2)
  | fin m _, inf neg => if m = 0 then nan else inf (xor (decide (m < 0)) neg)
  | inf neg, fin m _ => if m = 0 then nan else inf (xor neg (decide (m < 0)))
  | inf n1, inf n2 => inf (xor n1 n2)
  | _, _ => nan

/-- The difference `a - b` of two floats. -/
def sub : F32 → F32 → F32
  | fin m1 e1, fin m2 e2 =>
    let e := min e1 e2
    round (m1 * 2 ^ (e1 - e).toNat - m2 * 2 ^ (e2 - e).toNat) e
  | fin _ _, inf neg => inf (!neg)
  | inf neg, fin _ _ => inf neg
  | inf n1, inf n2 => if n1 = n2 then nan else inf n1
  | _, _ => nan

/-- The comparison `a < b` of two floats; false as soon as one of them is a NaN. -/
def lt : F32 → F32 → Bool
  | fin m1 e1, fin m2 e2 =>
    let e := min e1 e2
    decide (m1 * 2 ^ (e1 - e).toNat < m2 * 2 ^ (e2 - e).toNat)
  | fin _ _, inf neg => !neg
  | inf neg, fin _ _ => neg
  | inf n1, inf n2 => n1 && !n2
  | _, _ => false

/-- The integer part of `m * 2 ^ e`, rounding toward zero. -/
def trunc (m e : Int) : Int :=
  if 0 ≤ e then m * 2 ^ e.toNat else Int.tdiv m (2 ^ (-e).toNat)

/-- The conversion `static_cast<int16_t>(em)`: the value truncated toward zero; undefined
(`none`) when that integer is not an `int16_t`, and for an infinity or a NaN. -/
def toInt16 : F32 → Option Int
  | fin m e =>
    let t := trunc m e
    if -32768 ≤ t ∧ t ≤ 32767 then some t else none
  | _ => none

/-- Lines 86-87: `if (em > 32767.f) em = 32767.f; if (em < -32768.f) em = -32768.f;`. -/
def clamp (em : F32) : F32 :=
  let em1 := if lt (fin 32767 0) em then fin 32767 0 else em
  if lt em1 (fin (-32768) 0) then fin (-32768) 0 else em1

end F32

/-! ## applyPreEmphasis -/

/-- Line 84: the raw emphasized value `em = cur - alpha * prev`. -/
def rawEmphasis (alpha prev : F32) (cur : Int) : F32 :=
  F32.sub (F32.ofInt16 cur) (F32.mul alpha prev)

/-- Lines 83-88 for one sample: the value stored back into `audioData[i]`, or `none` when
the conversion to `int16_t` is undefined. -/
def emphasizeSample (alpha prev : F32) (cur : Int) : Option Int :=
  F32.toInt16 (F32.clamp (rawEmphasis alpha prev cur))

/-- The inner loop `for (size_t i = ch; i < audioData.size(); i += numChannels)` from
index `i` with the running `prev`, updating the buffer in place. Each iteration moves `i`
forward, so `fuel` above the buffer length is never used up. -/
def channelLoop (alpha : F32) (numChannels : Nat) : Nat → Nat → F32 → List Int → Option (List Int)
  | 0, _, _, _ => none
  | fuel + 1, i, prev, audioData =>
    if h : i < audioData.length then
      let cur := audioData[i]
      match emphasizeSample alpha prev cur with
      | none => none
      | some v =>
        channelLoop alpha numChannels fuel (i + numChannels) (F32.ofInt16 cur) (audioData.set i v)
    else some audioData

/-- The outer loop `for (int ch = 0; ch < numChannels; ++ch)`, with `k` channels left to
do starting at channel `ch`; `prev` starts at `0.0f` for each channel. -/
def channelsFrom (alpha : F32) (numChannels : Nat) : Nat → Nat → List Int → Option (List Int)
  | 0, _, audioData => some audioData
  | k + 1, ch, audioData =>
    match channelLoop alpha numChannels (audioData.length + 1) ch (F32.fin 0 0) audioData with
    | none => none
    | some audioData1 => channelsFrom alpha numChannels k (ch + 1) audioData1

/-- The function `applyPreEmphasis(audioData, numChannels, alpha)`: the buffer after the
in-place filter, or `none` when the run meets undefined behaviour. A `numChannels` that is
not positive runs no iteration, as `0` does here. -/
def applyPreEmphasis (audioData : List Int) (numChannels : Nat) (alpha : F32) : Option (List Int) :=
  channelsFrom alpha numChannels numChannels 0 audioData

/-- The constant `0.97f`: the binary32 nearest to 0.97, `16273900 * 2 ^ (-24)`. -/
def alpha097 : F32 := F32.fin 16273900 (-24)

/-- The value of `prev` when the filter reaches index `j` of the input buffer `x`: `0.0f`
in the first frame, else the input sample of the same channel one frame earlier. -/
def prevAt (numChannels : Nat) (x : List Int) (j : Nat) : F32 :=
  if j < numChannels then F32.fin 0 0 else F32.ofInt16 (x.getD (j - numChannels) 0)

/-! ## Streams, memory and outcomes -/

/-- The struct `FmtChunk`: the raw bytes of the format block and the fields parsed from them. -/
structure FmtChunk where
  fmt_size : Nat
  data : List Byte
  audio_format : Nat
  num_channels : Nat
  sample_rate : Nat
  bits_per_sample : Nat
  deriving DecidableEq, Repr

/-- A way to leave the behaviour the language defines. -/
inductive Fault where
  | divisionByZero
  | readOutOfBounds
  | writeOutOfBounds
  | floatToIntUndefined
  deriving DecidableEq, Repr

/-- The `return false` paths, named after the message each one prints. -/
inductive Failure where
  | cannotOpen
  | notValidWav
  | invalidStructure
  | only16Bit
  | cannotOpenToWrite
  deriving DecidableEq, Repr

/-- The result of a call: `return true` with the outputs, `return false`, or undefined
behaviour. -/
inductive Outcome (α : Type) where
  | ok (a : α)
  | fail (e : Failure)
  | undefined (f : Fault)
  deriving DecidableEq, Repr

/-- A `std::ifstream` opened in binary mode: the bytes not yet read and whether the
stream is still good (no `failbit`). -/
structure IStream where
  rest : List Byte
  good : Bool
  deriving DecidableEq, Repr

/-- The call `file.read(buf, n)`: the bytes stored at the start of `buf` and the stream
afterwards. A good stream delivers what is left, up to `n` bytes, and fails when fewer
than `n` were left; a failed stream delivers nothing. -/
def IStream.read (s : IStream) (n : Nat) : List Byte × IStream :=
  if s.good then (s.rest.take n, ⟨s.rest.drop n, decide (n ≤ s.rest.length)⟩) else ([], s)

/-- The call `file.seekg(n, std::ios::cur)` on a good stream: the position moves `n` bytes
forward, also past the end of the file; a failed stream stays as it is. -/
def IStream.skip (s : IStream) (n : Nat) : IStream :=
  if s.good then ⟨s.rest.drop n, true⟩ else s

/-- A buffer after a read stored `got` at its start: the rest keeps its old content. -/
def overwrite {α : Type} (old got : List α) : List α := got ++ old.drop got.length

/-- The call `v.resize(n)` on a vector: the first `n` old elements, then zeros. -/
def resize {α : Type} (zero : α) (old : List α) (n : Nat) : List α :=
  old.take n ++ List.replicate (n - old.length) zero

/-- The state on entry to `readWavFile` that the function does not set itself: the
indeterminate contents of the local arrays `riff` and `wave`, and the objects behind the
reference parameters `fmt`, `data_size` and `audioData`. -/
structure Entry where
  riff : List Byte
  wave : List Byte
  fmt : FmtChunk
  data_size : Nat
  audioData : List Int
  deriving DecidableEq, Repr

/-- The variables of `readWavFile` that the chunk loop reads and writes. -/
structure ScanState where
  file : IStream
  fmt : FmtChunk
  sawFmt : Bool
  sawData : Bool
  data_size : Nat
  deriving DecidableEq, Repr

/-! ## readWavFile -/

/-- Lines 37-59, the loop `while (file.read(&ch, sizeof(ch)))`: the state when the loop is
left, or the fault it runs into. A "fmt " chunk shorter than 16 bytes makes the `memcpy`
calls of lines 45-48 read past the end of `fmt.data`. Every iteration consumes the 8 bytes
of a chunk header, so `fuel` above the number of unread bytes is never used up. -/
def scanChunks : Nat → ScanState → Except Fault ScanState
  | 0, st => .ok st
  | fuel + 1, st =>
    let hdr := (st.file.read 8).1
    let file1 := (st.file.read 8).2
    if file1.good = false then .ok { st with file := file1 }
    else
      let cid := hdr.take 4
      let size := leVal (hdr.drop 4)
      if cid = tagFmt then
        let got := (file1.read size).1
        let file2 := (file1.read size).2
        let data := overwrite (resize 0 st.fmt.data size) got
        if size < 16 then .error Fault.readOutOfBounds
        else
          scanChunks fuel
            { st with
              file := file2
              sawFmt := true
              fmt :=
                { fmt_size := size
                  data := data
                  audio_format := u16At data 0
                  num_channels := u16At data 2
                  sample_rate := u32At data 4
                  bits_per_sample := u16At data 14 } }
      else if cid = tagData then
        .ok { st with file := file1, sawData := true, data_size := size }
      else scanChunks fuel { st with file := file1.skip size }

/-- Lines 27-33: the stream and the arrays `riff` and `wave` after the three reads of the
outer header. -/
def readHeader (env : Entry) (bytes : List Byte) : List Byte × List Byte × IStream :=
  let s0 : IStream := ⟨bytes, true⟩
  let riff := (overwrite env.riff (s0.read 4).1).take 4
  let s1 := (s0.read 4).2
  let s2 := (s1.read 4).2
  let wave := (overwrite env.wave (s2.read 4).1).take 4
  let s3 := (s2.read 4).2
  (riff, wave, s3)

/-- The chunk loop as `readWavFile` runs it on a file whose outer header was accepted. -/
def scanFile (env : Entry) (bytes : List Byte) : Except Fault ScanState :=
  scanChunks (bytes.length + 1)
    { file := (readHeader env bytes).2.2
      fmt := env.fmt
      sawFmt := false
      sawData := false
      data_size := env.data_size }

/-- Lines 61-72: the checks after the loop and the read of the sample payload. The quotient
of line 69 has the divisor `num_channels * 2`; the product of line 70 is a `uint32_t`; the
read of line 71 stores what the stream delivers, which has to fit the resized vector. -/
def finishRead (env : Entry) (st : ScanState) : Outcome (FmtChunk × Nat × List Int) :=
  if st.sawFmt = false ∨ st.sawData = false ∨ st.fmt.audio_format ≠ 1 then
    .fail Failure.invalidStructure
  else if st.fmt.bits_per_sample ≠ 16 then .fail Failure.only16Bit
  else if st.fmt.num_channels * 2 = 0 then .undefined Fault.divisionByZero
  else
    let num_samples := st.data_size / (st.fmt.num_channels * 2)
    let len := (num_samples * st.fmt.num_channels) % 2 ^ 32
    let got := (st.file.read st.data_size).1
    if 2 * len < got.length then .undefined Fault.writeOutOfBounds
    else
      .ok (st.fmt, st.data_size,
        bytesToSamples (overwrite (samplesToBytes (resize 0 env.audioData len)) got))

/-- The function `readWavFile(filename, fmt, data_size, audioData)` on a file with the
given content (`none`: the file cannot be opened). On success the outputs are the final
`fmt`, `data_size` and `audioData`. -/
def readWavFile (env : Entry) (file : Option (List Byte)) : Outcome (FmtChunk × Nat × List Int) :=
  match file with
  | none => .fail Failure.cannotOpen
  | some bytes =>
    if (readHeader env bytes).1 ≠ tagRIFF ∨ (readHeader env bytes).2.1 ≠ tagWAVE then
      .fail Failure.notValidWav
    else
      match scanFile env bytes with
      | .error f => .undefined f
      | .ok st => finishRead env st

/-! ## writeWavFile -/

/-- The function `writeWavFile(filename, fmt, audioData)`: the content of the file
written (`canOpen = false`: the file cannot be opened for writing). Line 109 reads
`fmt.fmt_size` bytes out of `fmt.data`, which has to hold that many. -/
def writeWavFile (canOpen : Bool) (fmt : FmtChunk) (audioData : List Int) : Outcome (List Byte) :=
  let data_size := (audioData.length * 2) % 2 ^ 32
  let riff_size := (4 + 8 + fmt.fmt_size + 8 + data_size) % 2 ^ 32
  if canOpen = false then .fail Failure.cannotOpenToWrite
  else if fmt.data.length < fmt.fmt_size then .undefined Fault.readOutOfBounds
  else
    .ok (tagRIFF ++ le32 riff_size ++ tagWAVE
      ++ tagFmt ++ le32 fmt.fmt_size ++ fmt.data.take fmt.fmt_size
      ++ tagData ++ le32 data_size ++ (samplesToBytes audioData).take data_size)

/-! ## main -/

namespace Program

/-- The function `main`: the exit status and the content of the output file, if one was
written. `fmt` and `audioData` start default-constructed (empty vectors). -/
def main (env : Entry) (input : Option (List Byte)) (canOpenOut : Bool) :
    Except Fault (Nat × Option (List Byte)) :=
  match readWavFile { env with fmt := { env.fmt with data := [] }, audioData := [] } input with
  | .fail _ => .ok (1, none)
  | .undefined f => .error f
  | .ok (fmt, _, audioData) =>
    match applyPreEmphasis audioData fmt.num_channels alpha097 with
    | none => .error Fault.floatToIntUndefined
    | some filtered =>
      match writeWavFile canOpenOut fmt filtered with
      | .fail _ => .ok (2, none)
      | .undefined f => .error f
      | .ok out => .ok (0, some out)

end Program

/-! ## Concrete data used to instantiate the theorems -/

/-- An entry state with empty vectors, as `main` passes them, and zeros elsewhere. -/
def freshEntry : Entry := ⟨[], [], ⟨0, [], 0, 0, 0, 0⟩, 0, []⟩

/-- A 16-byte format block: PCM (tag 1), 2 channels, 44100 Hz, 16 bits per sample. -/
def pcmStereoFmt : List Byte := [1, 0, 2, 0, 68, 172, 0, 0, 16, 177, 2, 0, 4, 0, 16, 0]

/-- A 16-byte format block with format tag 3 (IEEE float) instead of PCM. -/
def floatStereoFmt : List Byte := [3, 0, 2, 0, 68, 172, 0, 0, 16, 177, 2, 0, 4, 0, 16, 0]

/-- A 16-byte format block: PCM, 1 channel, 44100 Hz, 16 bits per sample. -/
def pcmMonoFmt : List Byte := [1, 0, 1, 0, 68, 172, 0, 0, 136, 88, 1, 0, 2, 0, 16, 0]

/-- A 16-byte format block that declares 0 channels: PCM, 44100 Hz, 16 bits per sample. -/
def zeroChannelFmt : List Byte := [1, 0, 0, 0, 68, 172, 0, 0, 0, 0, 0, 0, 0, 0, 16, 0]

/-- Two stereo frames: the samples 1, -1, -32768, 32767. -/
def twoFrames : List Byte := [1, 0, 255, 255, 0, 128, 255, 127]

/-! ## Well-formed chunk sequences (the shape of the inputs some theorems range over) -/

/-- A chunk of a RIFF file: its tag and its payload. -/
structure Chunk where
  tag : List Byte
  payload : List Byte
  deriving DecidableEq, Repr

/-- The bytes of a chunk in a file: the tag, the payload length as 4 little-endian bytes,
the payload. -/
def Chunk.encode (c : Chunk) : List Byte := c.tag ++ le32 c.payload.length ++ c.payload

/-- The bytes of a sequence of chunks, one after the other. -/
def encodeChunks : List Chunk → List Byte
  | [] => []
  | c :: cs => c.encode ++ encodeChunks cs

/-- A chunk the reader passes over without a fault and without leaving the loop: a 4-byte
tag other than "data", a payload length that fits 32 bits, and at least 16 payload bytes
when the tag is "fmt ". -/
def Chunk.passable (c : Chunk) : Prop :=
  c.tag.length = 4 ∧ c.tag ≠ tagData ∧ c.payload.length < 2 ^ 32 ∧
    (c.tag = tagFmt → 16 ≤ c.payload.length)

/-- A chunk the reader skips: a 4-byte tag other than "fmt " and "data" and a payload
length that fits 32 bits. -/
def Chunk.skippable (c : Chunk) : Prop :=
  c.tag.length = 4 ∧ c.tag ≠ tagFmt ∧ c.tag ≠ tagData ∧ c.payload.length < 2 ^ 32

/-! ## Facts about the binary32 model -/

theorem bitLength_le (fuel : Nat) : ∀ (n k : Nat), n < 2 ^ k → bitLength fuel n ≤ k := by
  induction fuel with
  | zero => intro n k _; simp [bitLength]
  | succ f ih =>
    intro n k h
    unfold bitLength
    split
    · exact Nat.zero_le _
    · rename_i hn
      cases k with
      | zero => simp at h; exact absurd h hn
      | succ k =>
        have h2 : n / 2 < 2 ^ k := by
          rw [Nat.pow_succ] at h; omega
        have := ih (n / 2) k h2
        omega

theorem bitLength_pos (fuel n : Nat) (h : n ≠ 0) : 1 ≤ bitLength (fuel + 1) n := by
  unfold bitLength
  simp [h]

theorem tdiv_le_of_le_mul (m P K : Int) (hP : 0 < P) (hK : 0 ≤ K) (h : m ≤ K * P) :
    Int.tdiv m P ≤ K := by
  rcases le_or_lt 0 m with hm | hm
  · rw [Int.tdiv_eq_ediv hm (le_of_lt hP)]
    exact Int.ediv_le_of_le_mul hP h
  · have h1 : 0 ≤ Int.tdiv (-m) P := Int.tdiv_nonneg (by omega) (le_of_lt hP)
    rw [Int.neg_tdiv] at h1
    omega

theorem le_tdiv_of_mul_le (m P K : Int) (hP : 0 < P) (hK : K ≤ 0) (h : K * P ≤ m) :
    K ≤ Int.tdiv m P := by
  rcases le_or_lt 0 m with hm | hm
  · have := Int.tdiv_nonneg hm (le_of_lt hP)
    omega
  · have h1 : Int.tdiv (-m) P = (-m) / P := Int.tdiv_eq_ediv (by omega) (le_of_lt hP)
    rw [Int.neg_tdiv] at h1
    have h2 : (-m) / P ≤ -K := Int.ediv_le_of_le_mul hP (by rw [Int.neg_mul]; omega)
    omega

namespace F32

theorem ite_inf_fin_ne_nan (c : Prop) [Decidable c] (b : Bool) (x y : Int) :
    (if c then inf b else fin x y) ≠ nan := by
  split <;> simp

theorem round_ne_nan (m e : Int) : round m e ≠ nan := by
  unfold round
  by_cases hm : m = 0
  · simp [hm]
  · rw [if_neg hm]
    exact ite_inf_fin_ne_nan _ _ _ _

theorem mul_fin_ne_nan (m1 e1 m2 e2 : Int) : mul (fin m1 e1) (fin m2 e2) ≠ nan := by
  simp only [mul]
  exact round_ne_nan _ _

theorem sub_fin_ne_nan (m e : Int) (b : F32) (hb : b ≠ nan) : sub (fin m e) b ≠ nan := by
  cases b with
  | fin m2 e2 => simp only [sub]; exact round_ne_nan _ _
  | inf neg => simp [sub]
  | nan => exact absurd rfl hb

theorem two_pow_pos_int (k : Nat) : (0 : Int) < 2 ^ k := by positivity

/-- A clamped value that is not a NaN converts to an `int16_t`. -/
theorem toInt16_clamp (em : F32) (h : em ≠ nan) :
    ∃ v, toInt16 (clamp em) = some v ∧ -32768 ≤ v ∧ v ≤ 32767 := by
  cases em with
  | nan => exact absurd rfl h
  | inf neg =>
    cases neg
    · exact ⟨32767, by decide, by decide, by decide⟩
    · exact ⟨-32768, by decide, by decide, by decide⟩
  | fin m e =>
    cases h1 : lt (fin 32767 0) (fin m e) with
    | true =>
      refine ⟨32767, ?_, by decide, by decide⟩
      unfold clamp
      simp only [h1, if_true]
      decide
    | false =>
      cases h2 : lt (fin m e) (fin (-32768) 0) with
      | true =>
        refine ⟨-32768, ?_, by decide, by decide⟩
        unfold clamp
        simp only [h1, h2, Bool.false_eq_true, if_false, if_true]
        decide
      | false =>
        have hc : clamp (fin m e) = fin m e := by
          unfold clamp
          simp only [h1, h2, Bool.false_eq_true, if_false]
        rw [hc]
        simp only [lt, decide_eq_false_iff_not, not_lt] at h1 h2
        have hr : -32768 ≤ trunc m e ∧ trunc m e ≤ 32767 := by
          unfold trunc
          rcases le_or_lt 0 e with he | he
          · have hmin : min 0 e = 0 := min_eq_left he
            have hmin2 : min e 0 = 0 := min_eq_right he
            rw [hmin] at h1
            rw [hmin2] at h2
            simp only [sub_zero, sub_self, Int.toNat_zero, pow_zero, mul_one] at h1 h2
            rw [if_pos he]
            omega
          · have hmin : min 0 e = e := min_eq_right (le_of_lt he)
            have hmin2 : min e 0 = e := min_eq_left (le_of_lt he)
            rw [hmin] at h1
            rw [hmin2] at h2
            simp only [sub_self, Int.toNat_zero, pow_zero, mul_one, zero_sub] at h1 h2
            rw [if_neg (not_le.mpr he)]
            have hP := two_pow_pos_int (-e).toNat
            exact ⟨le_tdiv_of_mul_le m _ (-32768) hP (by decide) h2,
              tdiv_le_of_le_mul m _ 32767 hP (by decide) h1⟩
        exact ⟨trunc m e, by simp only [toInt16]; rw [if_pos hr], hr.1, hr.2⟩

end F32

namespace F32

/-- Conversion of an `int16_t` to `float` and back is exact at every scaling. -/
theorem toInt16_clamp_scaled (c : Int) (k : Nat) (h1 : -32768 ≤ c) (h2 : c ≤ 32767) :
    toInt16 (clamp (fin (c * 2 ^ k) (-(k : Int)))) = some c := by
  have hP := two_pow_pos_int k
  have hmin : min (0 : Int) (-(k : Int)) = -(k : Int) := min_eq_right (by omega)
  have hmin2 : min (-(k : Int)) (0 : Int) = -(k : Int) := min_eq_left (by omega)
  have hk : ((0 : Int) - -(k : Int)).toNat = k := by omega
  have hlt1 : lt (fin 32767 0) (fin (c * 2 ^ k) (-(k : Int))) = false := by
    simp only [lt, hmin, hk, sub_self, Int.toNat_zero, pow_zero, mul_one, decide_eq_false_iff_not,
      not_lt]
    exact Int.mul_le_mul_of_nonneg_right h2 (le_of_lt hP)
  have hlt2 : lt (fin (c * 2 ^ k) (-(k : Int))) (fin (-32768) 0) = false := by
    simp only [lt, hmin2, hk, sub_self, Int.toNat_zero, pow_zero, mul_one, decide_eq_false_iff_not,
      not_lt]
    exact Int.mul_le_mul_of_nonneg_right h1 (le_of_lt hP)
  have hc : clamp (fin (c * 2 ^ k) (-(k : Int))) = fin (c * 2 ^ k) (-(k : Int)) := by
    unfold clamp
    simp only [hlt1, hlt2, Bool.false_eq_true, if_false]
  have ht : trunc (c * 2 ^ k) (-(k : Int)) = c := by
    unfold trunc
    rcases Nat.eq_zero_or_pos k with h0 | h0
    · subst h0; simp
    · rw [if_neg (by omega)]
      have : (-(-(k : Int))).toNat = k := by omega
      rw [this]
      exact Int.mul_tdiv_cancel c (ne_of_gt hP)
  rw [hc]
  simp only [toInt16, ht]
  rw [if_pos ⟨h1, h2⟩]

/-- An `int16_t` is a binary32 value: rounding leaves it as it is, up to scaling. -/
theorem round_int16 (c : Int) (hc0 : c ≠ 0) (h1 : -32768 ≤ c) (h2 : c ≤ 32767) :
    ∃ k : Nat, round c 0 = fin (c * 2 ^ k) (-(k : Int)) := by
  have ha : c.natAbs < 2 ^ 16 := by omega
  have hL16 := bitLength_le c.natAbs c.natAbs 16 ha
  have hL1 : 1 ≤ bitLength c.natAbs c.natAbs := by
    obtain ⟨f, hf⟩ : ∃ f, c.natAbs = f + 1 := ⟨c.natAbs - 1, by omega⟩
    have := bitLength_pos f c.natAbs (by omega)
    rw [← hf] at this
    exact this
  unfold round
  rw [if_neg hc0]
  dsimp only
  generalize bitLength c.natAbs c.natAbs = L at hL16 hL1 ⊢
  refine ⟨24 - L, ?_⟩
  have hE : max ((L : Int) + 0 - 24) (-149) = (L : Int) - 24 := by
    apply max_eq_left; omega
  simp only [hE]
  have hle : (L : Int) - 24 ≤ 0 := by omega
  have hno : ¬ (104 < (L : Int) - 24 ∨ ((L : Int) - 24 = 104 ∧
      2 ^ 24 ≤ (if (L : Int) - 24 ≤ 0 then c.natAbs * 2 ^ ((0 : Int) - ((L : Int) - 24)).toNat
        else roundShift c.natAbs ((L : Int) - 24 - 0).toNat))) := by
    omega
  rw [if_neg hno, if_pos hle]
  have hk : ((0 : Int) - ((L : Int) - 24)).toNat = 24 - L := by omega
  have hk2 : (L : Int) - 24 = -((24 - L : Nat) : Int) := by omega
  rw [hk, hk2]
  congr 1
  push_cast
  split
  · rename_i hneg
    rw [abs_of_neg hneg]
    ring
  · rename_i hneg
    rw [abs_of_nonneg (not_lt.mp hneg)]

end F32

namespace F32

theorem toInt16_clamp_of_gt (em : F32) (h : lt (fin 32767 0) em = true) :
    toInt16 (clamp em) = some 32767 := by
  unfold clamp
  simp only [h, if_true]
  decide

theorem not_gt_of_lt (em : F32) (h : lt em (fin (-32768) 0) = true) :
    lt (fin 32767 0) em = false := by
  cases em with
  | nan => rfl
  | inf neg =>
    cases neg
    · exact absurd h (by decide)
    · rfl
  | fin m e =>
    simp only [lt, decide_eq_true_eq] at h
    simp only [lt, decide_eq_false_iff_not, not_lt]
    rw [min_comm 0 e]
    have hA := two_pow_pos_int (0 - min e 0).toNat
    generalize (2 : Int) ^ (0 - min e 0).toNat = B at h hA ⊢
    generalize m * (2 : Int) ^ (e - min e 0).toNat = A at h ⊢
    omega

theorem toInt16_clamp_of_lt (em : F32) (h : lt em (fin (-32768) 0) = true) :
    toInt16 (clamp em) = some (-32768) := by
  unfold clamp
  simp only [not_gt_of_lt em h, h, Bool.false_eq_true, if_false, if_true]
  decide

end F32

/-! ## The filter loops -/

theorem emphasizeSample_fin (ma ea mp ep cur : Int) :
    ∃ v, emphasizeSample (F32.fin ma ea) (F32.fin mp ep) cur = some v ∧ -32768 ≤ v ∧ v ≤ 32767 := by
  unfold emphasizeSample rawEmphasis F32.ofInt16
  exact F32.toInt16_clamp _ (F32.sub_fin_ne_nan _ _ _ (F32.mul_fin_ne_nan _ _ _ _))

theorem toInt16_clamp_round_int16 (c : Int) (h1 : -32768 ≤ c) (h2 : c ≤ 32767) :
    F32.toInt16 (F32.clamp (F32.round c 0)) = some c := by
  by_cases hc : c = 0
  · subst hc; decide
  · obtain ⟨k, hk⟩ := F32.round_int16 c hc h1 h2
    rw [hk]
    exact F32.toInt16_clamp_scaled c k h1 h2

theorem rawEmphasis_of_mul_zero (alpha prev : F32) (cur : Int)
    (h : F32.mul alpha prev = F32.fin 0 0) : rawEmphasis alpha prev cur = F32.round cur 0 := by
  unfold rawEmphasis F32.ofInt16
  rw [h]
  simp [F32.sub]

theorem emphasizeSample_prev_zero (ma ea cur : Int) (h1 : -32768 ≤ cur) (h2 : cur ≤ 32767) :
    emphasizeSample (F32.fin ma ea) (F32.fin 0 0) cur = some cur := by
  unfold emphasizeSample
  rw [rawEmphasis_of_mul_zero _ _ _ (by simp [F32.mul, F32.round])]
  exact toInt16_clamp_round_int16 cur h1 h2

theorem emphasizeSample_alpha_zero (mp ep cur : Int) (h1 : -32768 ≤ cur) (h2 : cur ≤ 32767) :
    emphasizeSample (F32.fin 0 0) (F32.fin mp ep) cur = some cur := by
  unfold emphasizeSample
  rw [rawEmphasis_of_mul_zero _ _ _ (by simp [F32.mul, F32.round])]
  exact toInt16_clamp_round_int16 cur h1 h2

theorem stride_step (i j n : Nat) (hn : 1 ≤ n) (hne : j ≠ i) :
    (i ≤ j ∧ (j - i) % n = 0) ↔ (i + n ≤ j ∧ (j - (i + n)) % n = 0) := by
  constructor
  · rintro ⟨h1, h2⟩
    have hd : n ∣ j - i := Nat.dvd_of_mod_eq_zero h2
    have hle : n ≤ j - i := Nat.le_of_dvd (by omega) hd
    refine ⟨by omega, ?_⟩
    have he : j - i = n + (j - (i + n)) := by omega
    rw [he, Nat.add_mod_left] at h2
    exact h2
  · rintro ⟨h1, h2⟩
    refine ⟨by omega, ?_⟩
    have he : j - i = n + (j - (i + n)) := by omega
    rw [he, Nat.add_mod_left]
    exact h2

/-- What one run of the inner loop leaves in the buffer. -/
theorem channelLoop_sound (alpha : F32) (n : Nat) (hn : 1 ≤ n) :
    ∀ (fuel i : Nat) (prev : F32) (buf y : List Int),
      channelLoop alpha n fuel i prev buf = some y →
      y.length = buf.length ∧
      ∀ j, y[j]? = if i ≤ j ∧ (j - i) % n = 0
        then buf[j]?.bind
          (emphasizeSample alpha (if j = i then prev else F32.ofInt16 (buf.getD (j - n) 0)))
        else buf[j]? := by
  intro fuel
  induction fuel with
  | zero => intro i prev buf y h; simp [channelLoop] at h
  | succ f ih =>
    intro i prev buf y h
    unfold channelLoop at h
    split at h
    · rename_i hi
      cases hv : emphasizeSample alpha prev buf[i] with
      | none => simp [hv] at h
      | some v =>
        simp only [hv] at h
        obtain ⟨hlen, hj⟩ := ih _ _ _ _ h
        refine ⟨by rw [hlen, List.length_set], fun j => ?_⟩
        rw [hj j]
        by_cases hji : j = i
        · subst hji
          have hno : ¬ (j + n ≤ j ∧ (j - (j + n)) % n = 0) := by omega
          rw [if_neg hno, if_pos ⟨le_refl j, by simp⟩]
          simp [List.getElem?_set, hi, hv]
        · have hiff := stride_step i j n hn hji
          have hset : (buf.set i v)[j]? = buf[j]? := by
            rw [List.getElem?_set]; rw [if_neg (fun h => hji h.symm)]
          by_cases ht : i ≤ j ∧ (j - i) % n = 0
          · rw [if_pos ht, if_pos (hiff.mp ht), hset, if_neg hji]
            congr 2
            have h3 := (hiff.mp ht).1
            split
            · rename_i hjn
              have : j - n = i := by omega
              simp [this, List.getD_eq_getElem?_getD, List.getElem?_eq_getElem hi]
            · rename_i hjn
              have : i ≠ j - n := by omega
              simp [List.getD_eq_getElem?_getD, List.getElem?_set, this]
          · rw [if_neg ht, if_neg (fun h => ht (hiff.mpr h)), hset]
    · rename_i hi
      simp only [Option.some.injEq] at h
      subst h
      refine ⟨rfl, fun j => ?_⟩
      split
      · rename_i ht
        have : buf.length ≤ j := by omega
        simp [List.getElem?_eq_none this]
      · rfl

theorem stride_iff_mod (ch j n : Nat) (hch : ch < n) :
    (ch ≤ j ∧ (j - ch) % n = 0) ↔ j % n = ch := by
  constructor
  · rintro ⟨h1, h2⟩
    obtain ⟨q, hq⟩ := Nat.dvd_of_mod_eq_zero h2
    have hj : j = ch + n * q := by omega
    rw [hj, Nat.add_mul_mod_self_left]
    exact Nat.mod_eq_of_lt hch
  · intro h
    have hdm := Nat.div_add_mod j n
    have hle : ch ≤ j := by rw [← h]; exact Nat.mod_le j n
    refine ⟨hle, ?_⟩
    have : j - ch = n * (j / n) := by omega
    rw [this]
    exact Nat.mul_mod_right n (j / n)

theorem sub_mod_self (j n : Nat) (h : n ≤ j) : (j - n) % n = j % n := by
  have : j = (j - n) + n := by omega
  conv_rhs => rw [this]
  rw [Nat.add_mod_right]

/-- What the channels `ch, ..., ch + k - 1` of the outer loop leave in the buffer. -/
theorem channelsFrom_sound (alpha : F32) (n : Nat) (hn : 1 ≤ n) :
    ∀ (k ch : Nat) (buf y : List Int), ch + k ≤ n →
      channelsFrom alpha n k ch buf = some y →
      y.length = buf.length ∧
      ∀ j, y[j]? = if ch ≤ j % n ∧ j % n < ch + k
        then buf[j]?.bind (emphasizeSample alpha (prevAt n buf j))
        else buf[j]? := by
  intro k
  induction k with
  | zero =>
    intro ch buf y _ h
    simp only [channelsFrom, Option.some.injEq] at h
    subst h
    refine ⟨rfl, fun j => ?_⟩
    rw [if_neg (by omega)]
  | succ k ih =>
    intro ch buf y hch h
    unfold channelsFrom at h
    cases hb : channelLoop alpha n (buf.length + 1) ch (F32.fin 0 0) buf with
    | none => simp [hb] at h
    | some b1 =>
      simp only [hb] at h
      obtain ⟨hlen1, hj1⟩ := channelLoop_sound alpha n hn _ _ _ _ _ hb
      obtain ⟨hlen, hj⟩ := ih (ch + 1) b1 y (by omega) h
      refine ⟨by rw [hlen, hlen1], fun j => ?_⟩
      have hmod := stride_iff_mod ch j n (by omega)
      rw [hj j]
      by_cases hc : j % n = ch
      · rw [if_neg (by omega), if_pos (by omega), hj1 j, if_pos (hmod.mpr hc)]
        congr 2
        unfold prevAt
        by_cases hjn : j < n
        · have : j = ch := by rw [← hc]; exact (Nat.mod_eq_of_lt hjn).symm
          rw [if_pos this, if_pos hjn]
        · have : j ≠ ch := by omega
          rw [if_neg this, if_neg hjn]
      · have hsame : b1[j]? = buf[j]? := by
          rw [hj1 j, if_neg (fun h => hc (hmod.mp h))]
        have hprev : prevAt n b1 j = prevAt n buf j := by
          unfold prevAt
          by_cases hjn : j < n
          · rw [if_pos hjn, if_pos hjn]
          · rw [if_neg hjn, if_neg hjn]
            have hm : (j - n) % n ≠ ch := by
              rw [sub_mod_self j n (by omega)]; exact hc
            have hmod2 := stride_iff_mod ch (j - n) n (by omega)
            have : b1[j - n]? = buf[j - n]? := by
              rw [hj1 (j - n), if_neg (fun h => hm (hmod2.mp h))]
            simp [List.getD_eq_getElem?_getD, this]
        rw [hsame, hprev]
        by_cases hc2 : ch ≤ j % n ∧ j % n < ch + (k + 1)
        · rw [if_pos hc2, if_pos (by omega)]
        · rw [if_neg hc2, if_neg (by omega)]

/-- The filter is a pointwise function of the input buffer: sample `j` of the output is
the emphasized input sample `j`, with `prev` taken from the input one frame earlier. -/
theorem applyPreEmphasis_sound (x y : List Int) (n : Nat) (alpha : F32) (hn : 1 ≤ n)
    (h : applyPreEmphasis x n alpha = some y) :
    y.length = x.length ∧ ∀ j, y[j]? = x[j]?.bind (emphasizeSample alpha (prevAt n x j)) := by
  obtain ⟨hlen, hj⟩ := channelsFrom_sound alpha n hn n 0 x y (by omega) h
  refine ⟨hlen, fun j => ?_⟩
  rw [hj j, if_pos ⟨Nat.zero_le _, by rw [Nat.zero_add]; exact Nat.mod_lt j (by omega)⟩]

theorem channelLoop_total (ma ea : Int) (n : Nat) (hn : 1 ≤ n) :
    ∀ (fuel i : Nat) (mp ep : Int) (buf : List Int), buf.length - i < fuel →
      ∃ y, channelLoop (F32.fin ma ea) n fuel i (F32.fin mp ep) buf = some y := by
  intro fuel
  induction fuel with
  | zero => intro i mp ep buf h; omega
  | succ f ih =>
    intro i mp ep buf h
    unfold channelLoop
    split
    · rename_i hi
      obtain ⟨v, hv, _⟩ := emphasizeSample_fin ma ea mp ep buf[i]
      simp only [hv]
      exact ih _ _ _ _ (by rw [List.length_set]; omega)
    · exact ⟨buf, rfl⟩

theorem channelsFrom_total (ma ea : Int) (n : Nat) (hn : 1 ≤ n) :
    ∀ (k ch : Nat) (buf : List Int),
      ∃ y, channelsFrom (F32.fin ma ea) n k ch buf = some y := by
  intro k
  induction k with
  | zero => intro ch buf; exact ⟨buf, rfl⟩
  | succ k ih =>
    intro ch buf
    unfold channelsFrom
    obtain ⟨b1, hb⟩ := channelLoop_total ma ea n hn (buf.length + 1) ch 0 0 buf (by omega)
    simp only [hb]
    exact ih _ _

/-- With a finite `alpha` the filter meets no undefined conversion. -/
theorem applyPreEmphasis_total (x : List Int) (n : Nat) (ma ea : Int) (hn : 1 ≤ n) :
    ∃ y, applyPreEmphasis x n (F32.fin ma ea) = some y :=
  channelsFrom_total ma ea n hn n 0 x

theorem emphasizeSample_not_finite (alpha : F32) (cur : Int) (h : ∀ m e, alpha ≠ F32.fin m e) :
    emphasizeSample alpha (F32.fin 0 0) cur = none := by
  cases alpha with
  | fin m e => exact absurd rfl (h m e)
  | inf neg => rfl
  | nan => rfl

/-- With an infinite or NaN `alpha` the first sample already converts a NaN. -/
theorem applyPreEmphasis_not_finite (x : List Int) (n : Nat) (alpha : F32) (hn : 1 ≤ n)
    (hx : x ≠ []) (h : ∀ m e, alpha ≠ F32.fin m e) : applyPreEmphasis x n alpha = none := by
  obtain ⟨k, rfl⟩ : ∃ k, n = k + 1 := ⟨n - 1, by omega⟩
  cases x with
  | nil => exact absurd rfl hx
  | cons a t =>
    unfold applyPreEmphasis channelsFrom channelLoop
    simp [emphasizeSample_not_finite alpha a h]

theorem prevAt_fin (n : Nat) (x : List Int) (j : Nat) : ∃ mp ep, prevAt n x j = F32.fin mp ep := by
  unfold prevAt F32.ofInt16
  split
  · exact ⟨0, 0, rfl⟩
  · exact ⟨_, 0, rfl⟩

/-- With `alpha = 0` the filter gives back a buffer of `int16_t` samples unchanged. -/
theorem applyPreEmphasis_alpha_zero (x : List Int) (n : Nat) (hn : 1 ≤ n)
    (hx : ∀ z ∈ x, -32768 ≤ z ∧ z ≤ 32767) :
    applyPreEmphasis x n (F32.fin 0 0) = some x := by
  obtain ⟨y, hy⟩ := applyPreEmphasis_total x n 0 0 hn
  obtain ⟨_, hj⟩ := applyPreEmphasis_sound x y n _ hn hy
  rw [hy]
  congr 1
  apply List.ext_getElem?
  intro j
  rw [hj j]
  cases hxj : x[j]? with
  | none => rfl
  | some xi =>
    obtain ⟨mp, ep, hp⟩ := prevAt_fin n x j
    have hr := hx xi (List.getElem?_mem hxj)
    simp only [Option.bind, hp]
    exact emphasizeSample_alpha_zero mp ep xi hr.1 hr.2

/-- The inner loop never runs out of fuel: when it yields `none`, a conversion to
`int16_t` was undefined. -/
theorem channelLoop_none (alpha : F32) (n : Nat) (hn : 1 ≤ n) :
    ∀ (fuel i : Nat) (prev : F32) (buf : List Int), buf.length - i < fuel →
      channelLoop alpha n fuel i prev buf = none →
      ∃ prev1 cur, emphasizeSample alpha prev1 cur = none := by
  intro fuel
  induction fuel with
  | zero => intro i prev buf h; omega
  | succ f ih =>
    intro i prev buf h hnone
    unfold channelLoop at hnone
    split at hnone
    · rename_i hi
      cases hv : emphasizeSample alpha prev buf[i] with
      | none => exact ⟨prev, buf[i], hv⟩
      | some v =>
        simp only [hv] at hnone
        exact ih _ _ _ (by rw [List.length_set]; omega) hnone
    · exact absurd hnone (by simp)

/-! ## Bytes, fields and samples -/

theorem byte_val (n : Nat) : (byte n).val = n % 256 := rfl

theorem leVal_le32 (v : Nat) : leVal (le32 v) = v % 2 ^ 32 := by
  simp only [le32, leVal, byte_val]
  omega

theorem leVal_le32_of_lt (v : Nat) (h : v < 2 ^ 32) : leVal (le32 v) = v := by
  rw [leVal_le32, Nat.mod_eq_of_lt h]

theorem le32_length (v : Nat) : (le32 v).length = 4 := rfl

theorem le32_mod (v : Nat) : le32 (v % 2 ^ 32) = le32 v := by
  simp only [le32, byte, List.cons.injEq, Fin.mk.injEq, and_true]
  omega

theorem leVal_lt (bs : List Byte) : leVal bs < 256 ^ bs.length := by
  induction bs with
  | nil => simp [leVal]
  | cons b bs ih =>
    simp only [leVal, List.length_cons, pow_succ]
    have := b.isLt
    omega

theorem int16Bytes_length (z : Int) : (int16Bytes z).length = 2 := rfl

theorem samplesToBytes_length (s : List Int) : (samplesToBytes s).length = 2 * s.length := by
  induction s with
  | nil => rfl
  | cons z zs ih =>
    simp only [samplesToBytes, List.length_append, int16Bytes_length, ih, List.length_cons]
    omega

theorem toSigned16_range (u : Nat) (h : u < 65536) :
    -32768 ≤ toSigned16 u ∧ toSigned16 u ≤ 32767 := by
  unfold toSigned16
  split <;> omega

theorem int16Bytes_toSigned16 (b0 b1 : Byte) :
    int16Bytes (toSigned16 (b0.val + 256 * b1.val)) = [b0, b1] := by
  have h0 := b0.isLt
  have h1 := b1.isLt
  unfold int16Bytes toSigned16 le16 byte
  simp only [List.cons.injEq, and_true]
  constructor
  · apply Fin.ext
    simp only
    split <;> omega
  · apply Fin.ext
    simp only
    split <;> omega

/-- Decoding then encoding a sample buffer gives back the bytes of whole samples. -/
theorem samplesToBytes_bytesToSamples :
    ∀ (bs : List Byte), bs.length % 2 = 0 → samplesToBytes (bytesToSamples bs) = bs
  | [], _ => rfl
  | [_], h => by simp at h
  | b0 :: b1 :: bs, h => by
    have h2 : bs.length % 2 = 0 := by
      simp only [List.length_cons] at h; omega
    simp only [bytesToSamples, samplesToBytes, int16Bytes_toSigned16,
      samplesToBytes_bytesToSamples bs h2, List.cons_append, List.nil_append]

theorem bytesToSamples_length : ∀ (bs : List Byte), (bytesToSamples bs).length = bs.length / 2
  | [] => rfl
  | [_] => by simp [bytesToSamples]
  | b0 :: b1 :: bs => by
    simp only [bytesToSamples, List.length_cons, bytesToSamples_length bs]
    omega

theorem bytesToSamples_range :
    ∀ (bs : List Byte) (z : Int), z ∈ bytesToSamples bs → -32768 ≤ z ∧ z ≤ 32767
  | [], z, h => by simp [bytesToSamples] at h
  | [_], z, h => by simp [bytesToSamples] at h
  | b0 :: b1 :: bs, z, h => by
    simp only [bytesToSamples, List.mem_cons] at h
    rcases h with h | h
    · subst h
      have h0 := b0.isLt
      have h1 := b1.isLt
      exact toSigned16_range _ (by omega)
    · exact bytesToSamples_range bs z h

theorem resize_length {α : Type} (zero : α) (old : List α) (n : Nat) :
    (resize zero old n).length = n := by
  simp only [resize, List.length_append, List.length_take, List.length_replicate]
  omega

theorem overwrite_full {α : Type} (old got : List α) (h : old.length ≤ got.length) :
    overwrite old got = got := by
  simp [overwrite, List.drop_eq_nil_of_le h]

theorem overwrite_length {α : Type} (old got : List α) (h : got.length ≤ old.length) :
    (overwrite old got).length = old.length := by
  simp only [overwrite, List.length_append, List.length_drop]
  omega

/-! ## Steps of the reader -/

theorem read_exact (pre rest : List Byte) (n : Nat) (h : pre.length = n) :
    IStream.read ⟨pre ++ rest, true⟩ n = (pre, ⟨rest, true⟩) := by
  simp [IStream.read, List.take_left' h, List.drop_left' h, h]

theorem read_short (rest : List Byte) (n : Nat) (h : rest.length < n) :
    IStream.read ⟨rest, true⟩ n = (rest, ⟨[], false⟩) := by
  simp only [IStream.read, if_true, Prod.mk.injEq, IStream.mk.injEq, decide_eq_false_iff_not,
    not_le]
  exact ⟨List.take_of_length_le (le_of_lt h), List.drop_eq_nil_of_le (le_of_lt h), h⟩

/-- An outer header with both tags in place is accepted, whatever its size field. -/
theorem readHeader_valid (env : Entry) (sz rest : List Byte) (hsz : sz.length = 4) :
    readHeader env (tagRIFF ++ sz ++ tagWAVE ++ rest) = (tagRIFF, tagWAVE, ⟨rest, true⟩) := by
  have h1 : IStream.read ⟨tagRIFF ++ sz ++ tagWAVE ++ rest, true⟩ 4
      = (tagRIFF, ⟨sz ++ (tagWAVE ++ rest), true⟩) := by
    rw [List.append_assoc, List.append_assoc]
    exact read_exact tagRIFF _ 4 rfl
  have h2 := read_exact sz (tagWAVE ++ rest) 4 hsz
  have h3 := read_exact tagWAVE rest 4 rfl
  unfold readHeader
  simp only [h1, h2, h3]
  have e1 : overwrite env.riff tagRIFF = tagRIFF ++ env.riff.drop 4 := rfl
  have e2 : overwrite env.wave tagWAVE = tagWAVE ++ env.wave.drop 4 := rfl
  rw [e1, e2, List.take_left' (by rfl), List.take_left' (by rfl)]

/-- One iteration of the chunk loop on a complete "fmt " chunk of at least 16 bytes. -/
theorem scanChunks_fmt (fuel : Nat) (st : ScanState) (F : Nat) (body rest : List Byte)
    (hfile : st.file = ⟨tagFmt ++ le32 F ++ body ++ rest, true⟩)
    (hF : F < 2 ^ 32) (hlen : body.length = F) (h16 : 16 ≤ F) :
    scanChunks (fuel + 1) st = scanChunks fuel
      { st with
        file := ⟨rest, true⟩
        sawFmt := true
        fmt :=
          { fmt_size := F
            data := body
            audio_format := u16At body 0
            num_channels := u16At body 2
            sample_rate := u32At body 4
            bits_per_sample := u16At body 14 } } := by
  have h1 : IStream.read st.file 8 = (tagFmt ++ le32 F, ⟨body ++ rest, true⟩) := by
    rw [hfile, List.append_assoc]
    exact read_exact _ _ 8 rfl
  have h2 := read_exact body rest F hlen
  have h3 : (tagFmt ++ le32 F).take 4 = tagFmt := List.take_left' rfl
  have h4 : (tagFmt ++ le32 F).drop 4 = le32 F := List.drop_left' rfl
  have h5 : overwrite (resize 0 st.fmt.data F) body = body :=
    overwrite_full _ _ (by rw [resize_length, hlen])
  rw [scanChunks]
  simp only [h1, h3, h4, leVal_le32_of_lt F hF, h2, h5]
  rw [if_neg (by simp), if_pos trivial, if_neg (by omega)]

/-- One iteration of the chunk loop on the header of a "data" chunk: the loop is left. -/
theorem scanChunks_data (fuel : Nat) (st : ScanState) (D : Nat) (rest : List Byte)
    (hfile : st.file = ⟨tagData ++ le32 D ++ rest, true⟩) (hD : D < 2 ^ 32) :
    scanChunks (fuel + 1) st
      = .ok { st with file := ⟨rest, true⟩, sawData := true, data_size := D } := by
  have h1 : IStream.read st.file 8 = (tagData ++ le32 D, ⟨rest, true⟩) := by
    rw [hfile]
    exact read_exact _ _ 8 rfl
  have h3 : (tagData ++ le32 D).take 4 = tagData := List.take_left' rfl
  have h4 : (tagData ++ le32 D).drop 4 = le32 D := List.drop_left' rfl
  rw [scanChunks]
  simp only [h1, h3, h4, leVal_le32_of_lt D hD]
  rw [if_neg (by simp), if_neg (by decide), if_pos trivial]

/-- The scan of a file made of the outer header, one "fmt " chunk and a "data" chunk
header followed by `tail`. -/
theorem scanFile_fmt_data (env : Entry) (sz body tail : List Byte) (F D : Nat)
    (hsz : sz.length = 4) (hF : F < 2 ^ 32) (hlen : body.length = F) (h16 : 16 ≤ F)
    (hD : D < 2 ^ 32) :
    scanFile env
        (tagRIFF ++ sz ++ tagWAVE ++ (tagFmt ++ le32 F ++ body ++ (tagData ++ le32 D ++ tail)))
      = .ok
        { file := ⟨tail, true⟩
          fmt :=
            { fmt_size := F
              data := body
              audio_format := u16At body 0
              num_channels := u16At body 2
              sample_rate := u32At body 4
              bits_per_sample := u16At body 14 }
          sawFmt := true
          sawData := true
          data_size := D } := by
  unfold scanFile
  rw [readHeader_valid env sz _ hsz]
  obtain ⟨f, hfuel⟩ : ∃ f, (tagRIFF ++ sz ++ tagWAVE
      ++ (tagFmt ++ le32 F ++ body ++ (tagData ++ le32 D ++ tail))).length + 1 = f + 1 + 1 := by
    refine ⟨(tagRIFF ++ sz ++ tagWAVE
      ++ (tagFmt ++ le32 F ++ body ++ (tagData ++ le32 D ++ tail))).length - 1, ?_⟩
    have : 4 ≤ (tagRIFF ++ sz ++ tagWAVE
      ++ (tagFmt ++ le32 F ++ body ++ (tagData ++ le32 D ++ tail))).length := by
      simp only [List.length_append, hsz]
      omega
    omega
  rw [hfuel, scanChunks_fmt _ _ F body (tagData ++ le32 D ++ tail) rfl hF hlen h16,
    scanChunks_data _ _ D tail rfl hD]

theorem frames_mul_le (D n : Nat) : D / (n * 2) * n ≤ D := by
  have h1 : D / (n * 2) * (n * 2) ≤ D := Nat.div_mul_le_self D (n * 2)
  have h2 : D / (n * 2) * n ≤ D / (n * 2) * (n * 2) :=
    Nat.mul_le_mul_left _ (by omega)
  omega

/-- The state in which a scan that met a "data" chunk leaves the stream and `data_size`. -/
theorem scanChunks_data_inv (fuel : Nat) :
    ∀ (st0 st : ScanState), scanChunks fuel st0 = .ok st → st0.sawData = false →
      st.sawData = true → st.file.good = true ∧ st.data_size < 2 ^ 32 := by
  induction fuel with
  | zero =>
    intro st0 st h h0 h1
    simp only [scanChunks, Except.ok.injEq] at h
    subst h
    rw [h0] at h1
    exact absurd h1 (by decide)
  | succ f ih =>
    intro st0 st h h0 h1
    rw [scanChunks] at h
    dsimp only at h
    split at h
    · simp only [Except.ok.injEq] at h
      subst h
      rw [h0] at h1
      exact absurd h1 (by decide)
    · rename_i hgood
      split at h
      · split at h
        · exact absurd h (by simp)
        · exact ih _ st h h0 h1
      · split at h
        · simp only [Except.ok.injEq] at h
          subst h
          refine ⟨by simpa using hgood, ?_⟩
          have hl := leVal_lt (List.drop 4 (st0.file.read 8).1)
          have hlen : (List.drop 4 (st0.file.read 8).1).length ≤ 4 := by
            simp only [IStream.read]
            split <;> simp
          have hpow : 256 ^ (List.drop 4 (st0.file.read 8).1).length ≤ 256 ^ 4 :=
            Nat.pow_le_pow_right (by decide) hlen
          show leVal (List.drop 4 (st0.file.read 8).1) < 2 ^ 32
          have : (256 : Nat) ^ 4 = 2 ^ 32 := by norm_num
          omega
        · exact ih _ st h h0 h1

/-- The checks after the loop pass and the payload read stays inside the buffer: the
outputs of a successful `readWavFile`. -/
theorem finishRead_ok (env : Entry) (st : ScanState)
    (hf : st.sawFmt = true) (hd : st.sawData = true)
    (ha : st.fmt.audio_format = 1) (hb : st.fmt.bits_per_sample = 16)
    (hn : 1 ≤ st.fmt.num_channels) (hgood : st.file.good = true) (hD : st.data_size < 2 ^ 32)
    (hfit : (st.file.rest.take st.data_size).length
      ≤ 2 * (st.data_size / (st.fmt.num_channels * 2) * st.fmt.num_channels)) :
    finishRead env st = .ok (st.fmt, st.data_size,
      bytesToSamples (overwrite
        (samplesToBytes
          (resize 0 env.audioData (st.data_size / (st.fmt.num_channels * 2) * st.fmt.num_channels)))
        (st.file.rest.take st.data_size))) := by
  have hle := frames_mul_le st.data_size st.fmt.num_channels
  have hmod : (st.data_size / (st.fmt.num_channels * 2) * st.fmt.num_channels) % 2 ^ 32
      = st.data_size / (st.fmt.num_channels * 2) * st.fmt.num_channels :=
    Nat.mod_eq_of_lt (by omega)
  have hread : (st.file.read st.data_size).1 = st.file.rest.take st.data_size := by
    simp [IStream.read, hgood]
  unfold finishRead
  rw [if_neg (by simp [hf, hd, ha]), if_neg (by simp [hb]), if_neg (by omega)]
  simp only [hmod, hread]
  rw [if_neg (by omega)]

/-- One iteration of the chunk loop on a complete chunk that is neither "fmt " nor
"data": the chunk is skipped and nothing else changes. -/
theorem scanChunks_other (fuel : Nat) (st : ScanState) (tag body rest : List Byte)
    (hfile : st.file = ⟨tag ++ le32 body.length ++ body ++ rest, true⟩)
    (htag : tag.length = 4) (hfmt : tag ≠ tagFmt) (hdata : tag ≠ tagData)
    (hlen : body.length < 2 ^ 32) :
    scanChunks (fuel + 1) st = scanChunks fuel { st with file := ⟨rest, true⟩ } := by
  have h1 : IStream.read st.file 8 = (tag ++ le32 body.length, ⟨body ++ rest, true⟩) := by
    rw [hfile, List.append_assoc]
    exact read_exact _ _ 8 (by rw [List.length_append, htag, le32_length])
  have h3 : (tag ++ le32 body.length).take 4 = tag := List.take_left' htag
  have h4 : (tag ++ le32 body.length).drop 4 = le32 body.length := List.drop_left' htag
  have h5 : IStream.skip ⟨body ++ rest, true⟩ body.length = ⟨rest, true⟩ := by
    simp [IStream.skip]
  rw [scanChunks]
  simp only [h1, h3, h4, leVal_le32_of_lt _ hlen, h5]
  rw [if_neg (by simp), if_neg hfmt, if_neg hdata]

/-- The chunk loop ends when fewer than 8 bytes are left: the header read fails. -/
theorem scanChunks_eof (fuel : Nat) (st : ScanState) (rest : List Byte)
    (hfile : st.file = ⟨rest, true⟩) (hlen : rest.length < 8) :
    scanChunks (fuel + 1) st = .ok { st with file := ⟨[], false⟩ } := by
  rw [scanChunks]
  simp only [hfile, read_short rest 8 hlen]
  rw [if_pos trivial]

theorem encodeChunks_length_ge (cs : List Chunk) : cs.length ≤ (encodeChunks cs).length := by
  induction cs with
  | nil => simp [encodeChunks]
  | cons c cs ih =>
    simp only [encodeChunks, Chunk.encode, List.length_cons, List.length_append, le32_length]
    omega

/-- A run of chunks none of which is "data", followed by fewer than 8 bytes: the loop
passes over all of them and ends at the end of the stream without having seen "data". -/
theorem scanChunks_no_data (cs : List Chunk) :
    ∀ (fuel : Nat) (st0 : ScanState) (tail : List Byte),
      (∀ c ∈ cs, c.passable) → tail.length < 8 → cs.length < fuel →
      st0.file = ⟨encodeChunks cs ++ tail, true⟩ →
      ∃ st, scanChunks fuel st0 = .ok st ∧ st.sawData = st0.sawData ∧
        st.file = ⟨[], false⟩ := by
  induction cs with
  | nil =>
    intro fuel st0 tail _ htail hfuel hfile
    obtain ⟨f, rfl⟩ : ∃ f, fuel = f + 1 := ⟨fuel - 1, by simp at hfuel; omega⟩
    exact ⟨_, scanChunks_eof f st0 tail (by simpa [encodeChunks] using hfile) htail, rfl, rfl⟩
  | cons c cs ih =>
    intro fuel st0 tail hpass htail hfuel hfile
    obtain ⟨f, rfl⟩ : ∃ f, fuel = f + 1 := ⟨fuel - 1, by simp at hfuel; omega⟩
    obtain ⟨htag, hdata, hlen, h16⟩ := hpass c (List.mem_cons_self c cs)
    have hpass' : ∀ c' ∈ cs, c'.passable := fun c' hc' => hpass c' (List.mem_cons_of_mem c hc')
    have hfuel' : cs.length < f := by simp at hfuel; omega
    have hfile' : st0.file
        = ⟨c.tag ++ le32 c.payload.length ++ c.payload ++ (encodeChunks cs ++ tail), true⟩ := by
      rw [hfile]; simp only [encodeChunks, Chunk.encode, List.append_assoc]
    by_cases hfmt : c.tag = tagFmt
    · rw [hfmt] at hfile'
      rw [scanChunks_fmt f st0 c.payload.length c.payload _ hfile' hlen rfl (h16 hfmt)]
      exact ih f _ tail hpass' htail hfuel' rfl
    · rw [scanChunks_other f st0 c.tag c.payload _ hfile' htag hfmt hdata hlen]
      exact ih f _ tail hpass' htail hfuel' rfl

theorem read_rest_le (s : IStream) (n : Nat) : (s.read n).2.rest.length ≤ s.rest.length := by
  unfold IStream.read
  split
  · simp only [List.length_drop]; omega
  · exact le_refl _

theorem skip_rest_le (s : IStream) (n : Nat) : (s.skip n).rest.length ≤ s.rest.length := by
  unfold IStream.skip
  split
  · simp only [List.length_drop]; omega
  · exact le_refl _

/-- The result of the chunk loop does not depend on the fuel, once the fuel exceeds the
number of unread bytes: the loop of the model ends for the reason the loop of the program
ends. -/
theorem scanChunks_fuel (f1 : Nat) :
    ∀ (f2 : Nat) (st : ScanState), st.file.rest.length < f1 → st.file.rest.length < f2 →
      scanChunks f1 st = scanChunks f2 st := by
  induction f1 with
  | zero => intro f2 st h1 _; omega
  | succ a ih =>
    intro f2 st h1 h2
    obtain ⟨b, rfl⟩ : ∃ b, f2 = b + 1 := ⟨f2 - 1, by omega⟩
    rw [scanChunks, scanChunks]
    dsimp only
    by_cases hg : (st.file.read 8).2.good = false
    · rw [if_pos hg, if_pos hg]
    · rw [if_neg hg, if_neg hg]
      have hread : st.file.good = true ∧ 8 ≤ st.file.rest.length := by
        unfold IStream.read at hg
        split at hg
        · rename_i hgood
          simp only [decide_eq_false_iff_not, not_le, not_lt] at hg
          exact ⟨hgood, hg⟩
        · rename_i hgood
          simp only [Bool.not_eq_true] at hgood
          exact absurd hgood hg
      have hrest : (st.file.read 8).2.rest.length + 8 = st.file.rest.length := by
        simp only [IStream.read, hread.1, if_true, List.length_drop]
        omega
      have hsub := read_rest_le (st.file.read 8).2 (leVal (List.drop 4 (st.file.read 8).1))
      have hskip := skip_rest_le (st.file.read 8).2 (leVal (List.drop 4 (st.file.read 8).1))
      split
      · split
        · rfl
        · exact ih b _ (by simp only; omega) (by simp only; omega)
      · split
        · rfl
        · exact ih b _ (by simp only; omega) (by simp only; omega)

/-- A run of chunks that are neither "fmt " nor "data" is skipped: the loop goes on
behind it in the state it was in. -/
theorem scanChunks_skip (cs : List Chunk) :
    ∀ (fuel : Nat) (st0 : ScanState) (rest : List Byte),
      (∀ c ∈ cs, c.skippable) → st0.file = ⟨encodeChunks cs ++ rest, true⟩ →
      scanChunks (fuel + cs.length) st0 = scanChunks fuel { st0 with file := ⟨rest, true⟩ } := by
  induction cs with
  | nil =>
    intro fuel st0 rest _ hfile
    have : st0 = { st0 with file := ⟨rest, true⟩ } := by
      cases st0
      simp only [encodeChunks, List.nil_append] at hfile
      simp only [ScanState.mk.injEq, and_true]
      exact hfile
    rw [List.length_nil, Nat.add_zero]
    exact congrArg (scanChunks fuel) this
  | cons c cs ih =>
    intro fuel st0 rest hskip hfile
    obtain ⟨htag, hfmt, hdata, hlen⟩ := hskip c (List.mem_cons_self c cs)
    have hskip' : ∀ c' ∈ cs, c'.skippable := fun c' hc' => hskip c' (List.mem_cons_of_mem c hc')
    have hfile' : st0.file
        = ⟨c.tag ++ le32 c.payload.length ++ c.payload ++ (encodeChunks cs ++ rest), true⟩ := by
      rw [hfile]; simp only [encodeChunks, Chunk.encode, List.append_assoc]
    rw [List.length_cons, ← Nat.add_assoc,
      scanChunks_other (fuel + cs.length) st0 c.tag c.payload _ hfile' htag hfmt hdata hlen]
    exact ih fuel _ rest hskip' rfl

/-- The fuel `scanFile` starts with, seen from a run of chunks after the outer header. -/
theorem scanFile_fuel (sz : List Byte) (cs : List Chunk) (rest : List Byte) :
    ∃ f, (tagRIFF ++ sz ++ tagWAVE ++ (encodeChunks cs ++ rest)).length + 1
      = (f + 1) + cs.length := by
  have := encodeChunks_length_ge cs
  refine ⟨(tagRIFF ++ sz ++ tagWAVE ++ (encodeChunks cs ++ rest)).length - cs.length, ?_⟩
  simp only [List.length_append] at *
  omega

/-! ## What a successful read tells -/

theorem toSigned16_int16Bytes (z : Int) (h1 : -32768 ≤ z) (h2 : z ≤ 32767) :
    toSigned16 ((byte (z % 65536).toNat).val + 256 * (byte ((z % 65536).toNat / 256)).val)
      = z := by
  simp only [byte_val]
  unfold toSigned16
  split <;> omega

/-- Encoding then decoding a buffer of `int16_t` samples gives the buffer back. -/
theorem bytesToSamples_samplesToBytes (s : List Int)
    (hs : ∀ z ∈ s, -32768 ≤ z ∧ z ≤ 32767) : bytesToSamples (samplesToBytes s) = s := by
  induction s with
  | nil => rfl
  | cons z zs ih =>
    have hz := hs z (List.mem_cons_self z zs)
    have hzs : ∀ w ∈ zs, -32768 ≤ w ∧ w ≤ 32767 := fun w hw => hs w (List.mem_cons_of_mem z hw)
    have e : samplesToBytes (z :: zs)
        = byte (z % 65536).toNat :: byte ((z % 65536).toNat / 256) :: samplesToBytes zs := rfl
    rw [e]
    simp only [bytesToSamples, ih hzs, toSigned16_int16Bytes z hz.1 hz.2]

theorem read_fst_length_le (s : IStream) (n : Nat) : (s.read n).1.length ≤ n := by
  unfold IStream.read
  split
  · simp only [List.length_take]; omega
  · simp

/-- The facts behind a `return true` of lines 61-72. -/
theorem finishRead_ok_inv (env : Entry) (st : ScanState) (fmt : FmtChunk) (D : Nat)
    (s : List Int) (h : finishRead env st = .ok (fmt, D, s)) :
    st.sawFmt = true ∧ st.sawData = true ∧ st.fmt.audio_format = 1 ∧
      st.fmt.bits_per_sample = 16 ∧ 1 ≤ st.fmt.num_channels ∧ fmt = st.fmt ∧
      D = st.data_size ∧
      ((st.file.read st.data_size).1).length
        ≤ 2 * ((st.data_size / (st.fmt.num_channels * 2) * st.fmt.num_channels) % 2 ^ 32) ∧
      s = bytesToSamples (overwrite
        (samplesToBytes (resize 0 env.audioData
          ((st.data_size / (st.fmt.num_channels * 2) * st.fmt.num_channels) % 2 ^ 32)))
        (st.file.read st.data_size).1) := by
  unfold finishRead at h
  split at h
  · exact absurd h (by simp)
  · rename_i h1
    split at h
    · exact absurd h (by simp)
    · rename_i h2
      split at h
      · exact absurd h (by simp)
      · rename_i h3
        dsimp only at h
        split at h
        · exact absurd h (by simp)
        · rename_i h4
          simp only [Outcome.ok.injEq, Prod.mk.injEq] at h
          obtain ⟨hfmt, hD, hs⟩ := h
          simp only [not_or, not_not, Bool.not_eq_false] at h1 h2
          exact ⟨h1.1, h1.2.1, h1.2.2, h2, by omega, hfmt.symm, hD.symm, by omega, hs.symm⟩

/-- A successful `readWavFile` went through the header test, a completed chunk scan and
the checks after the loop. -/
theorem readWavFile_ok_inv (env : Entry) (bytes : List Byte) (fmt : FmtChunk) (D : Nat)
    (s : List Int) (h : readWavFile env (some bytes) = .ok (fmt, D, s)) :
    (readHeader env bytes).1 = tagRIFF ∧ (readHeader env bytes).2.1 = tagWAVE ∧
      ∃ st, scanFile env bytes = .ok st ∧ finishRead env st = .ok (fmt, D, s) := by
  unfold readWavFile at h
  simp only at h
  split at h
  · exact absurd h (by simp)
  · rename_i hh
    simp only [not_or, not_not] at hh
    refine ⟨hh.1, hh.2, ?_⟩
    cases hscan : scanFile env bytes with
    | error f => rw [hscan] at h; exact absurd h (by simp)
    | ok st => rw [hscan] at h; exact ⟨st, rfl, h⟩

/-- The descriptor invariant of the data model: `data` holds `fmt_size` bytes, at least
16, and the four fields are the little-endian values at offsets 0, 2, 4 and 14. -/
theorem scanChunks_fmt_inv (fuel : Nat) :
    ∀ (st0 st : ScanState), scanChunks fuel st0 = .ok st → st0.sawFmt = false →
      st.sawFmt = true →
      st.fmt.data.length = st.fmt.fmt_size ∧ 16 ≤ st.fmt.fmt_size ∧ st.fmt.fmt_size < 2 ^ 32 ∧
        st.fmt.audio_format = u16At st.fmt.data 0 ∧ st.fmt.num_channels = u16At st.fmt.data 2 ∧
        st.fmt.sample_rate = u32At st.fmt.data 4 ∧
        st.fmt.bits_per_sample = u16At st.fmt.data 14 := by
  have key : ∀ (fuel : Nat) (st0 st : ScanState), scanChunks fuel st0 = .ok st →
      (st0.sawFmt = true →
        st0.fmt.data.length = st0.fmt.fmt_size ∧ 16 ≤ st0.fmt.fmt_size ∧
          st0.fmt.fmt_size < 2 ^ 32 ∧
          st0.fmt.audio_format = u16At st0.fmt.data 0 ∧
          st0.fmt.num_channels = u16At st0.fmt.data 2 ∧
          st0.fmt.sample_rate = u32At st0.fmt.data 4 ∧
          st0.fmt.bits_per_sample = u16At st0.fmt.data 14) →
      st.sawFmt = true →
      st.fmt.data.length = st.fmt.fmt_size ∧ 16 ≤ st.fmt.fmt_size ∧ st.fmt.fmt_size < 2 ^ 32 ∧
        st.fmt.audio_format = u16At st.fmt.data 0 ∧ st.fmt.num_channels = u16At st.fmt.data 2 ∧
        st.fmt.sample_rate = u32At st.fmt.data 4 ∧
        st.fmt.bits_per_sample = u16At st.fmt.data 14 := by
    intro fuel
    induction fuel with
    | zero =>
      intro st0 st h h0 h1
      simp only [scanChunks, Except.ok.injEq] at h
      subst h
      exact h0 h1
    | succ f ih =>
      intro st0 st h h0 h1
      rw [scanChunks] at h
      dsimp only at h
      split at h
      · simp only [Except.ok.injEq] at h
        subst h
        exact h0 h1
      · split at h
        · split at h
          · exact absurd h (by simp)
          · rename_i h16
            refine ih _ st h (fun _ => ?_) h1
            have hl := leVal_lt (List.drop 4 (st0.file.read 8).1)
            have hlen : (List.drop 4 (st0.file.read 8).1).length ≤ 4 := by
              simp only [IStream.read]
              split <;> simp
            have hpow : 256 ^ (List.drop 4 (st0.file.read 8).1).length ≤ 256 ^ 4 :=
              Nat.pow_le_pow_right (by decide) hlen
            have h256 : (256 : Nat) ^ 4 = 2 ^ 32 := by norm_num
            refine ⟨?_, by simp only; omega, by simp only; omega, rfl, rfl, rfl, rfl⟩
            simp only
            rw [overwrite_length _ _ (by rw [resize_length]; exact read_fst_length_le _ _),
              resize_length]
        · split at h
          · simp only [Except.ok.injEq] at h
            subst h
            exact h0 h1
          · exact ih _ st h h0 h1
  intro st0 st h h0 h1
  exact key fuel st0 st h (fun h => by rw [h0] at h; exact absurd h (by decide)) h1

/-- A run of complete chunks none of which is "data" is passed over: the loop goes on
behind it, in a state that depends on the chunks but not on what follows them. -/
theorem scanChunks_pass (cs : List Chunk) :
    ∀ (fmt0 : FmtChunk) (sawFmt0 sawData0 : Bool) (ds0 : Nat), (∀ c ∈ cs, c.passable) →
      ∃ fmt1 sawFmt1, ∀ (fuel : Nat) (rest : List Byte),
        scanChunks (fuel + cs.length)
            ⟨⟨encodeChunks cs ++ rest, true⟩, fmt0, sawFmt0, sawData0, ds0⟩
          = scanChunks fuel ⟨⟨rest, true⟩, fmt1, sawFmt1, sawData0, ds0⟩ := by
  induction cs with
  | nil =>
    intro fmt0 sawFmt0 sawData0 ds0 _
    exact ⟨fmt0, sawFmt0, fun fuel rest => by simp [encodeChunks]⟩
  | cons c cs ih =>
    intro fmt0 sawFmt0 sawData0 ds0 hpass
    obtain ⟨htag, hdata, hlen, h16⟩ := hpass c (List.mem_cons_self c cs)
    have hpass' : ∀ c' ∈ cs, c'.passable := fun c' hc' => hpass c' (List.mem_cons_of_mem c hc')
    have henc : ∀ rest, encodeChunks (c :: cs) ++ rest
        = c.tag ++ le32 c.payload.length ++ c.payload ++ (encodeChunks cs ++ rest) := by
      intro rest; simp only [encodeChunks, Chunk.encode, List.append_assoc]
    by_cases hfmt : c.tag = tagFmt
    · obtain ⟨fmt1, sawFmt1, h1⟩ := ih
        ⟨c.payload.length, c.payload, u16At c.payload 0, u16At c.payload 2, u32At c.payload 4,
          u16At c.payload 14⟩ true sawData0 ds0 hpass'
      refine ⟨fmt1, sawFmt1, fun fuel rest => ?_⟩
      rw [List.length_cons, ← Nat.add_assoc,
        scanChunks_fmt (fuel + cs.length) _ c.payload.length c.payload
          (encodeChunks cs ++ rest) (by rw [henc, hfmt]) hlen rfl (h16 hfmt)]
      exact h1 fuel rest
    · obtain ⟨fmt1, sawFmt1, h1⟩ := ih fmt0 sawFmt0 sawData0 ds0 hpass'
      refine ⟨fmt1, sawFmt1, fun fuel rest => ?_⟩
      rw [List.length_cons, ← Nat.add_assoc,
        scanChunks_other (fuel + cs.length) _ c.tag c.payload
          (encodeChunks cs ++ rest) (by rw [henc]) htag hfmt hdata hlen]
      exact h1 fuel rest

/-- The outer header of a file of at least 12 bytes: the arrays hold bytes 0-3 and 8-11
and the stream stands behind byte 11. -/
theorem readHeader_long (env : Entry) (bytes : List Byte) (h : 12 ≤ bytes.length) :
    readHeader env bytes = (bytes.take 4, (bytes.drop 8).take 4, ⟨bytes.drop 12, true⟩) := by
  unfold readHeader
  have h1 : IStream.read ⟨bytes, true⟩ 4 = (bytes.take 4, ⟨bytes.drop 4, true⟩) := by
    simp only [IStream.read, if_true, Prod.mk.injEq, IStream.mk.injEq, decide_eq_true_eq,
      true_and]
    omega
  have h2 : IStream.read ⟨bytes.drop 4, true⟩ 4
      = ((bytes.drop 4).take 4, ⟨bytes.drop 8, true⟩) := by
    simp only [IStream.read, if_true, Prod.mk.injEq, IStream.mk.injEq, decide_eq_true_eq,
      true_and, List.drop_drop, List.length_drop]
    omega
  have h3 : IStream.read ⟨bytes.drop 8, true⟩ 4
      = ((bytes.drop 8).take 4, ⟨bytes.drop 12, true⟩) := by
    simp only [IStream.read, if_true, Prod.mk.injEq, IStream.mk.injEq, decide_eq_true_eq,
      true_and, List.drop_drop, List.length_drop]
    omega
  simp only [h1, h2, h3]
  have e1 : overwrite env.riff (bytes.take 4) = bytes.take 4 ++ env.riff.drop 4 := by
    simp only [overwrite, List.length_take]
    rw [Nat.min_eq_left (by omega)]
  have e2 : overwrite env.wave ((bytes.drop 8).take 4)
      = (bytes.drop 8).take 4 ++ env.wave.drop 4 := by
    simp only [overwrite, List.length_take, List.length_drop]
    rw [Nat.min_eq_left (by omega)]
  rw [e1, e2, List.take_left' (by simp only [List.length_take]; omega),
    List.take_left' (by simp only [List.length_take, List.length_drop]; omega)]

/-- The stream after the outer header of a file of fewer than 12 bytes has failed. -/
theorem readHeader_short (env : Entry) (bytes : List Byte) (h : bytes.length < 12) :
    (readHeader env bytes).2.2.good = false := by
  unfold readHeader
  simp only [IStream.read]
  by_cases h4 : 4 ≤ bytes.length
  · by_cases h8 : 8 ≤ bytes.length
    · have : ¬ 4 ≤ bytes.length - 4 - 4 := by omega
      simp [h4, List.length_drop, show 4 ≤ bytes.length - 4 by omega]
      omega
    · have : ¬ 4 ≤ bytes.length - 4 := by omega
      simp [h4, List.length_drop, this]
  · simp [h4]

/-- On a failed stream the chunk loop ends at once and changes nothing but the stream. -/
theorem scanChunks_failed (fuel : Nat) (st : ScanState) (h : st.file.good = false) :
    scanChunks fuel st = .ok st := by
  cases fuel with
  | zero => rfl
  | succ f =>
    rw [scanChunks]
    have hr : st.file.read 8 = ([], st.file) := by simp [IStream.read, h]
    simp only [hr]
    rw [if_pos h]

theorem le32_leVal (bs : List Byte) (h : bs.length = 4) : le32 (leVal bs) = bs := by
  match bs, h with
  | [a, b, c, d], _ =>
    have ha := a.isLt
    have hb := b.isLt
    have hc := c.isLt
    have hd := d.isLt
    simp only [le32, leVal, byte, List.cons.injEq, and_true]
    refine ⟨?_, ?_, ?_, ?_⟩ <;> apply Fin.ext <;> simp only <;> omega

theorem read_good (s : IStream) (n : Nat) (h : ¬ (s.read n).2.good = false) :
    s.good = true ∧ n ≤ s.rest.length ∧
      s.read n = (s.rest.take n, ⟨s.rest.drop n, true⟩) := by
  unfold IStream.read at h ⊢
  split at h
  · rename_i hgood
    simp only [decide_eq_false_iff_not, not_le, not_lt] at h
    refine ⟨hgood, h, ?_⟩
    rw [if_pos hgood]
    simp [h]
  · rename_i hgood
    simp only [Bool.not_eq_true] at hgood
    exact absurd hgood h

/-- The shape of a stream on which the chunk loop meets a "data" chunk: a run of complete
chunks none of which is "data", then the "data" header with the recorded size, then the
bytes the stream is left with. -/
theorem scanChunks_data_shape (fuel : Nat) :
    ∀ (st0 st : ScanState), scanChunks fuel st0 = .ok st → st0.sawData = false →
      st.sawData = true →
      ∃ cs : List Chunk, (∀ c ∈ cs, c.passable) ∧
        st0.file.rest = encodeChunks cs ++ (tagData ++ le32 st.data_size ++ st.file.rest) ∧
        st0.file.good = true := by
  induction fuel with
  | zero =>
    intro st0 st h h0 h1
    simp only [scanChunks, Except.ok.injEq] at h
    subst h
    rw [h0] at h1
    exact absurd h1 (by decide)
  | succ f ih =>
    intro st0 st h h0 h1
    rw [scanChunks] at h
    dsimp only at h
    split at h
    · simp only [Except.ok.injEq] at h
      subst h
      rw [h0] at h1
      exact absurd h1 (by decide)
    · rename_i hg
      obtain ⟨hgood, h8, hread⟩ := read_good st0.file 8 hg
      rw [hread] at h
      simp only at h
      have hsplit : st0.file.rest
          = (st0.file.rest.take 8).take 4 ++ (st0.file.rest.take 8).drop 4
            ++ st0.file.rest.drop 8 := by
        rw [List.take_append_drop, List.take_append_drop]
      have htagl : ((st0.file.rest.take 8).take 4).length = 4 := by
        simp only [List.length_take]; omega
      have hszl : ((st0.file.rest.take 8).drop 4).length = 4 := by
        simp only [List.length_drop, List.length_take]; omega
      have hle := le32_leVal _ hszl
      have hlt : leVal ((st0.file.rest.take 8).drop 4) < 2 ^ 32 := by
        have := leVal_lt ((st0.file.rest.take 8).drop 4)
        rw [hszl] at this
        have h256 : (256 : Nat) ^ 4 = 2 ^ 32 := by norm_num
        omega
      generalize hsz : leVal ((st0.file.rest.take 8).drop 4) = size at h hle hlt
      generalize htag : (st0.file.rest.take 8).take 4 = tag at h hsplit htagl
      generalize hr1 : st0.file.rest.drop 8 = r1 at h hsplit
      rw [← hle] at hsplit
      have hchunk : ∀ cs1 tl, r1.drop size = encodeChunks cs1 ++ (tagData ++ tl) →
          (⟨tag, r1.take size⟩ : Chunk).payload.length = size ∧
          st0.file.rest = encodeChunks (⟨tag, r1.take size⟩ :: cs1) ++ (tagData ++ tl) := by
        intro cs1 tl hd
        have hne : (r1.drop size).length ≠ 0 := by
          rw [hd]; simp [tagData]
        have hsize : size ≤ r1.length := by
          simp only [List.length_drop] at hne; omega
        have hpl : (r1.take size).length = size := by
          simp only [List.length_take]; omega
        refine ⟨hpl, ?_⟩
        have hr : r1 = r1.take size ++ (encodeChunks cs1 ++ (tagData ++ tl)) := by
          rw [← hd, List.take_append_drop]
        simp only [encodeChunks, Chunk.encode, hpl]
        rw [hsplit]
        conv_lhs => rw [hr]
        simp only [List.append_assoc]
      split at h
      · rename_i hfmt
        split at h
        · exact absurd h (by simp)
        · rename_i h16
          obtain ⟨cs1, hcs1, hrest1, _⟩ := ih _ st h h0 h1
          have hrest1' : r1.drop size
              = encodeChunks cs1 ++ (tagData ++ (le32 st.data_size ++ st.file.rest)) := by
            simp only [IStream.read, if_true, List.append_assoc] at hrest1
            exact hrest1
          obtain ⟨hpl, hshape⟩ := hchunk cs1 _ hrest1'
          refine ⟨⟨tag, r1.take size⟩ :: cs1, ?_, by rw [hshape]; simp only [List.append_assoc],
            hgood⟩
          intro c hc
          rcases List.mem_cons.mp hc with hc | hc
          · subst hc
            exact ⟨htagl, by rw [hfmt]; exact (by decide : tagFmt ≠ tagData),
              by rw [hpl]; exact hlt,
              fun _ => by rw [hpl]; omega⟩
          · exact hcs1 c hc
      · rename_i hfmt
        split at h
        · rename_i hdata
          simp only [Except.ok.injEq] at h
          subst h
          refine ⟨[], fun c hc => absurd hc (List.not_mem_nil c), ?_, hgood⟩
          simp only [encodeChunks, List.nil_append]
          rw [hsplit, hdata]
        · rename_i hdata
          obtain ⟨cs1, hcs1, hrest1, _⟩ := ih _ st h h0 h1
          have hrest1' : r1.drop size
              = encodeChunks cs1 ++ (tagData ++ (le32 st.data_size ++ st.file.rest)) := by
            simp only [IStream.skip, if_true, List.append_assoc] at hrest1
            exact hrest1
          obtain ⟨hpl, hshape⟩ := hchunk cs1 _ hrest1'
          refine ⟨⟨tag, r1.take size⟩ :: cs1, ?_, by rw [hshape]; simp only [List.append_assoc],
            hgood⟩
          intro c hc
          rcases List.mem_cons.mp hc with hc | hc
          · subst hc
            exact ⟨htagl, hdata, by rw [hpl]; exact hlt, fun hf => absurd hf hfmt⟩
          · exact hcs1 c hc

theorem encodeChunks_append (cs1 cs2 : List Chunk) :
    encodeChunks (cs1 ++ cs2) = encodeChunks cs1 ++ encodeChunks cs2 := by
  induction cs1 with
  | nil => rfl
  | cons c cs ih =>
    show c.encode ++ encodeChunks (cs ++ cs2) = c.encode ++ encodeChunks cs ++ encodeChunks cs2
    rw [ih, List.append_assoc]

/-- The shape of every file `readWavFile` accepts: the outer header, a run of complete
chunks none of which is "data", the "data" header with the returned `data_size`, and
the bytes the payload is read from. -/
theorem readWavFile_ok_shape (env : Entry) (bytes : List Byte) (fmt : FmtChunk) (D : Nat)
    (s : List Int) (h : readWavFile env (some bytes) = .ok (fmt, D, s)) :
    ∃ (sz : List Byte) (cs : List Chunk) (tail : List Byte) (st : ScanState),
      sz.length = 4 ∧ (∀ c ∈ cs, c.passable) ∧
      bytes = tagRIFF ++ sz ++ tagWAVE ++ (encodeChunks cs ++ (tagData ++ le32 D ++ tail)) ∧
      scanFile env bytes = .ok st ∧ st.file = ⟨tail, true⟩ ∧
      finishRead env st = .ok (fmt, D, s) := by
  obtain ⟨hriff, hwave, st, hscan, hfin⟩ := readWavFile_ok_inv env bytes fmt D s h
  obtain ⟨_, hsd, _, _, _, _, hD, _, _⟩ := finishRead_ok_inv env st fmt D s hfin
  have hscan' := hscan
  unfold scanFile at hscan'
  obtain ⟨cs, hcs, hrest, hgood⟩ := scanChunks_data_shape _ _ st hscan' rfl hsd
  obtain ⟨hstgood, _⟩ := scanChunks_data_inv _ _ st hscan' rfl hsd
  have hlen : 12 ≤ bytes.length := by
    by_contra hlt
    have := readHeader_short env bytes (by omega)
    simp only at hgood
    rw [this] at hgood
    exact absurd hgood (by decide)
  rw [readHeader_long env bytes hlen] at hriff hwave hrest
  simp only at hriff hwave hrest
  refine ⟨(bytes.drop 4).take 4, cs, st.file.rest, st,
    by simp only [List.length_take, List.length_drop]; omega, hcs, ?_, hscan, ?_, hfin⟩
  · have h1 : bytes = bytes.take 4 ++ ((bytes.drop 4).take 4
        ++ ((bytes.drop 8).take 4 ++ bytes.drop 12)) := by
      have a1 := List.take_append_drop 4 bytes
      have a2 := List.take_append_drop 4 (bytes.drop 4)
      have a3 := List.take_append_drop 4 (bytes.drop 8)
      simp only [List.drop_drop] at a2 a3
      rw [a3, a2, a1]
    rw [hD, ← hrest, ← hriff, ← hwave]
    simp only [List.append_assoc]
    exact h1
  · cases hf : st.file with
    | mk r g =>
      rw [hf] at hstgood
      simp only at hstgood
      rw [hstgood]

theorem bytesToSamples_getElem? :
    ∀ (k : Nat) (bs : List Byte) (b0 b1 : Byte), bs[2 * k]? = some b0 →
      bs[2 * k + 1]? = some b1 →
      (bytesToSamples bs)[k]? = some (toSigned16 (b0.val + 256 * b1.val))
  | _, [], _, _, h0, _ => by simp at h0
  | _, [_], _, _, _, h1 => by simp at h1
  | 0, c0 :: c1 :: bs, b0, b1, h0, h1 => by
    simp only [Nat.mul_zero, List.getElem?_cons_zero, Option.some.injEq, Nat.zero_add,
      List.getElem?_cons_succ] at h0 h1
    subst h0 h1
    simp [bytesToSamples]
  | k + 1, c0 :: c1 :: bs, b0, b1, h0, h1 => by
    have e0 : 2 * (k + 1) = (2 * k + 1) + 1 := by ring
    have e1 : 2 * (k + 1) + 1 = (2 * k + 1 + 1) + 1 := by ring
    rw [e0, List.getElem?_cons_succ, List.getElem?_cons_succ] at h0
    rw [e1, List.getElem?_cons_succ, List.getElem?_cons_succ] at h1
    simp only [bytesToSamples, List.getElem?_cons_succ]
    exact bytesToSamples_getElem? k bs b0 b1 h0 h1

theorem frames_exact (D n : Nat) (hn : 1 ≤ n) (h : D % (2 * n) = 0) :
    2 * (D / (n * 2) * n) = D ∧ D % 2 = 0 := by
  obtain ⟨q, hq⟩ := Nat.dvd_of_mod_eq_zero h
  have hdiv : D / (n * 2) = q := by
    rw [hq, Nat.mul_comm 2 n]
    exact Nat.mul_div_cancel_left q (by omega)
  rw [hdiv]
  constructor
  · rw [hq]; ring
  · rw [hq, Nat.mul_assoc]; exact Nat.mul_mod_right 2 (n * q)

/-- C1: a file made of exactly the 12-byte RIFF/WAVE header (size field = number of bytes
after it), one "fmt " chunk (at least 16 bytes, format tag 1, 16 bits, at least one
channel) and one "data" chunk with its whole payload, a whole number of frames, is
reproduced byte for byte by `readWavFile`, `applyPreEmphasis` with `alpha = 0` and
`writeWavFile`. -/
theorem roundtrip_zero_gain (env : Entry) (S F D : Nat) (fmtBytes payload : List Byte)
    (hS : S = 4 + 8 + F + 8 + D) (hS32 : S < 2 ^ 32)
    (hF : fmtBytes.length = F) (h16 : 16 ≤ F)
    (htag : u16At fmtBytes 0 = 1) (hbits : u16At fmtBytes 14 = 16)
    (hch : 1 ≤ u16At fmtBytes 2)
    (hD : payload.length = D) (hframes : D % (2 * u16At fmtBytes 2) = 0) :
    readWavFile env (some (tagRIFF ++ le32 S ++ tagWAVE ++ tagFmt ++ le32 F ++ fmtBytes
        ++ tagData ++ le32 D ++ payload))
      = .ok (⟨F, fmtBytes, u16At fmtBytes 0, u16At fmtBytes 2, u32At fmtBytes 4,
          u16At fmtBytes 14⟩, D, bytesToSamples payload) ∧
    applyPreEmphasis (bytesToSamples payload) (u16At fmtBytes 2) (F32.fin 0 0)
      = some (bytesToSamples payload) ∧
    writeWavFile true ⟨F, fmtBytes, u16At fmtBytes 0, u16At fmtBytes 2, u32At fmtBytes 4,
        u16At fmtBytes 14⟩ (bytesToSamples payload)
      = .ok (tagRIFF ++ le32 S ++ tagWAVE ++ tagFmt ++ le32 F ++ fmtBytes
        ++ tagData ++ le32 D ++ payload) := by
  have hassoc : tagRIFF ++ le32 S ++ tagWAVE ++ tagFmt ++ le32 F ++ fmtBytes
      ++ tagData ++ le32 D ++ payload
      = tagRIFF ++ le32 S ++ tagWAVE
        ++ (tagFmt ++ le32 F ++ fmtBytes ++ (tagData ++ le32 D ++ payload)) := by
    simp only [List.append_assoc]
  have hscan := scanFile_fmt_data env (le32 S) fmtBytes payload F D rfl (by omega) hF h16
    (by omega)
  have hhdr := readHeader_valid env (le32 S)
    (tagFmt ++ le32 F ++ fmtBytes ++ (tagData ++ le32 D ++ payload)) rfl
  obtain ⟨hfr, heven⟩ := frames_exact D (u16At fmtBytes 2) hch hframes
  have htake : List.take D payload = payload := List.take_of_length_le (by omega)
  have hfin := finishRead_ok env
    { file := ⟨payload, true⟩
      fmt :=
        { fmt_size := F
          data := fmtBytes
          audio_format := u16At fmtBytes 0
          num_channels := u16At fmtBytes 2
          sample_rate := u32At fmtBytes 4
          bits_per_sample := u16At fmtBytes 14 }
      sawFmt := true
      sawData := true
      data_size := D } rfl rfl htag hbits hch rfl (show D < 2 ^ 32 by omega)
    (by simp only [htake]; omega)
  simp only [htake] at hfin
  rw [overwrite_full _ _ (by rw [samplesToBytes_length, resize_length]; omega)] at hfin
  refine ⟨?_, ?_, ?_⟩
  · rw [hassoc]
    unfold readWavFile
    simp only [hhdr, hscan]
    rw [if_neg (by simp)]
    exact hfin
  · exact applyPreEmphasis_alpha_zero _ _ hch (bytesToSamples_range payload)
  · unfold writeWavFile
    have hlen : (bytesToSamples payload).length * 2 = D := by
      rw [bytesToSamples_length]; omega
    have hds : (bytesToSamples payload).length * 2 % 2 ^ 32 = D := by
      rw [hlen]; exact Nat.mod_eq_of_lt (by omega)
    have hrs : (4 + 8 + F + 8 + D) % 2 ^ 32 = S := by
      rw [← hS]; exact Nat.mod_eq_of_lt hS32
    simp only [hds, hrs]
    rw [if_neg (by simp), if_neg (by simp only [hF]; omega),
      samplesToBytes_bytesToSamples payload (by omega), htake,
      List.take_of_length_le (by omega)]

/-- Witness of C1: a 52-byte stereo file with two frames. -/
theorem roundtrip_zero_gain_witness :
    (44 = 4 + 8 + 16 + 8 + 8 ∧ 8 % (2 * u16At pcmStereoFmt 2) = 0) ∧
    (readWavFile freshEntry (some (tagRIFF ++ le32 44 ++ tagWAVE ++ tagFmt ++ le32 16
        ++ pcmStereoFmt ++ tagData ++ le32 8 ++ twoFrames))
      = .ok (⟨16, pcmStereoFmt, u16At pcmStereoFmt 0, u16At pcmStereoFmt 2,
          u32At pcmStereoFmt 4, u16At pcmStereoFmt 14⟩, 8, bytesToSamples twoFrames) ∧
    applyPreEmphasis (bytesToSamples twoFrames) (u16At pcmStereoFmt 2) (F32.fin 0 0)
      = some (bytesToSamples twoFrames) ∧
    writeWavFile true ⟨16, pcmStereoFmt, u16At pcmStereoFmt 0, u16At pcmStereoFmt 2,
        u32At pcmStereoFmt 4, u16At pcmStereoFmt 14⟩ (bytesToSamples twoFrames)
      = .ok (tagRIFF ++ le32 44 ++ tagWAVE ++ tagFmt ++ le32 16 ++ pcmStereoFmt
        ++ tagData ++ le32 8 ++ twoFrames)) :=
  ⟨⟨by decide, by decide⟩,
    roundtrip_zero_gain freshEntry 44 16 8 pcmStereoFmt twoFrames (by decide) (by decide)
      (by decide) (by decide) (by decide) (by decide) (by decide) (by decide) (by decide)⟩

/-- C2: for a finite `alpha` and `n ≥ 1` channels, `applyPreEmphasis` returns a buffer `y`
of the length of the input `x`, and for every index `i ≥ n` the sample `y[i]` is the
truncation toward zero of `clamp(x[i] - alpha * x[i-n])`, computed from the input sample
`x[i-n]` one frame earlier, not from the filtered `y[i-n]`. -/
theorem fir_reference (x : List Int) (n : Nat) (ma ea : Int) (hn : 1 ≤ n) :
    ∃ y, applyPreEmphasis x n (F32.fin ma ea) = some y ∧ y.length = x.length ∧
      ∀ i xi xp, n ≤ i → x[i]? = some xi → x[i - n]? = some xp →
        y[i]? = F32.toInt16 (F32.clamp
          (F32.sub (F32.ofInt16 xi) (F32.mul (F32.fin ma ea) (F32.ofInt16 xp)))) := by
  obtain ⟨y, hy⟩ := applyPreEmphasis_total x n ma ea hn
  obtain ⟨hlen, hj⟩ := applyPreEmphasis_sound x y n _ hn hy
  refine ⟨y, hy, hlen, fun i xi xp hi hxi hxp => ?_⟩
  rw [hj i, hxi]
  have hp : prevAt n x i = F32.ofInt16 xp := by
    unfold prevAt
    rw [if_neg (by omega)]
    simp [List.getD_eq_getElem?_getD, hxp]
  simp only [Option.bind, hp]
  rfl

/-- Witness of C2: a stereo buffer of two frames and `alpha = 0.97f`. -/
theorem fir_reference_witness :
    1 ≤ 2 ∧ ∃ y, applyPreEmphasis [100, 200, 300, -400] 2 (F32.fin 16273900 (-24)) = some y ∧
      y.length = [100, 200, 300, -400].length ∧
      ∀ i xi xp, 2 ≤ i → [100, 200, 300, -400][i]? = some xi →
        [100, 200, 300, -400][i - 2]? = some xp →
        y[i]? = F32.toInt16 (F32.clamp
          (F32.sub (F32.ofInt16 xi) (F32.mul (F32.fin 16273900 (-24)) (F32.ofInt16 xp)))) :=
  ⟨by decide, fir_reference [100, 200, 300, -400] 2 16273900 (-24) (by decide)⟩

theorem prevAt_congr (n c : Nat) (x x' : List Int)
    (hagree : ∀ i, i % n = c → x[i]? = x'[i]?) (i : Nat) (hi : i % n = c) :
    prevAt n x i = prevAt n x' i := by
  unfold prevAt
  by_cases hin : i < n
  · rw [if_pos hin, if_pos hin]
  · rw [if_neg hin, if_neg hin]
    have hm : (i - n) % n = c := by rw [sub_mod_self i n (by omega)]; exact hi
    simp [List.getD_eq_getElem?_getD, hagree (i - n) hm]

/-- C3: for `n ≥ 1` channels, any `alpha` and two buffers of equal length that agree on
channel `c` (the indices `i` with `i mod n = c`), the two runs of `applyPreEmphasis` agree
on channel `c`; with a finite `alpha` both runs return a buffer. -/
theorem channel_independence (x x' : List Int) (n c : Nat) (alpha : F32) (hn : 1 ≤ n)
    (hlen : x.length = x'.length) (hagree : ∀ i, i % n = c → x[i]? = x'[i]?) :
    (∀ i, i % n = c →
      (applyPreEmphasis x n alpha).bind (fun y => y[i]?)
        = (applyPreEmphasis x' n alpha).bind (fun y => y[i]?)) ∧
    (∀ ma ea, alpha = F32.fin ma ea →
      ∃ y y', applyPreEmphasis x n alpha = some y ∧ applyPreEmphasis x' n alpha = some y' ∧
        ∀ i, i % n = c → y[i]? = y'[i]?) := by
  have hfin : ∀ ma ea, alpha = F32.fin ma ea →
      ∃ y y', applyPreEmphasis x n alpha = some y ∧ applyPreEmphasis x' n alpha = some y' ∧
        ∀ i, i % n = c → y[i]? = y'[i]? := by
    intro ma ea ha
    subst ha
    obtain ⟨y, hy⟩ := applyPreEmphasis_total x n ma ea hn
    obtain ⟨y', hy'⟩ := applyPreEmphasis_total x' n ma ea hn
    obtain ⟨_, hj⟩ := applyPreEmphasis_sound x y n _ hn hy
    obtain ⟨_, hj'⟩ := applyPreEmphasis_sound x' y' n _ hn hy'
    refine ⟨y, y', hy, hy', fun i hi => ?_⟩
    rw [hj i, hj' i, hagree i hi, prevAt_congr n c x x' hagree i hi]
  refine ⟨fun i hi => ?_, hfin⟩
  by_cases ha : ∃ ma ea, alpha = F32.fin ma ea
  · obtain ⟨ma, ea, ha⟩ := ha
    obtain ⟨y, y', hy, hy', hyy⟩ := hfin ma ea ha
    rw [hy, hy']
    exact hyy i hi
  · have ha' : ∀ m e, alpha ≠ F32.fin m e := fun m e h => ha ⟨m, e, h⟩
    by_cases hx : x = []
    · have hx' : x' = [] := by
        apply List.eq_nil_of_length_eq_zero
        rw [← hlen, hx]; rfl
      rw [hx, hx']
    · have hx' : x' ≠ [] := by
        intro h
        apply hx
        apply List.eq_nil_of_length_eq_zero
        rw [hlen, h]; rfl
      rw [applyPreEmphasis_not_finite x n alpha hn hx ha',
        applyPreEmphasis_not_finite x' n alpha hn hx' ha']

/-- Witness of C3: two channels, channel 0 the same, channel 1 all zero or arbitrary. -/
theorem channel_independence_witness :
    (∀ i, i % 2 = 0 →
      (applyPreEmphasis [100, 0, 300, 0] 2 alpha097).bind (fun y => y[i]?)
        = (applyPreEmphasis [100, 7, 300, -9] 2 alpha097).bind (fun y => y[i]?)) ∧
    (∀ ma ea, alpha097 = F32.fin ma ea →
      ∃ y y', applyPreEmphasis [100, 0, 300, 0] 2 alpha097 = some y ∧
        applyPreEmphasis [100, 7, 300, -9] 2 alpha097 = some y' ∧
        ∀ i, i % 2 = 0 → y[i]? = y'[i]?) :=
  channel_independence [100, 0, 300, 0] [100, 7, 300, -9] 2 0 alpha097 (by decide) rfl
    (fun i hi => by
      rcases i with _ | _ | _ | _ | i
      · rfl
      · simp at hi
      · rfl
      · simp at hi
      · rfl)

/-- C4: for a finite `alpha` and `n ≥ 1` channels every sample stored by
`applyPreEmphasis` lies in `[-32768, 32767]`; a raw emphasized value above `32767.f` is
stored as 32767 and one below `-32768.f` as -32768; the mono buffer `[32767, -32768]` with
`alpha = 0.97f` is mapped to `[32767, -32768]`. -/
theorem clamping_saturates (x : List Int) (n : Nat) (ma ea : Int) (hn : 1 ≤ n) :
    ∃ y, applyPreEmphasis x n (F32.fin ma ea) = some y ∧
      (∀ z ∈ y, -32768 ≤ z ∧ z ≤ 32767) ∧
      (∀ i xi, x[i]? = some xi →
        (F32.lt (F32.fin 32767 0) (rawEmphasis (F32.fin ma ea) (prevAt n x i) xi) = true →
          y[i]? = some 32767) ∧
        (F32.lt (rawEmphasis (F32.fin ma ea) (prevAt n x i) xi) (F32.fin (-32768) 0) = true →
          y[i]? = some (-32768))) ∧
      applyPreEmphasis [32767, -32768] 1 alpha097 = some [32767, -32768] := by
  obtain ⟨y, hy⟩ := applyPreEmphasis_total x n ma ea hn
  obtain ⟨_, hj⟩ := applyPreEmphasis_sound x y n _ hn hy
  refine ⟨y, hy, fun z hz => ?_, fun i xi hxi => ⟨fun h => ?_, fun h => ?_⟩, by decide⟩
  · obtain ⟨j, hzj⟩ := List.mem_iff_getElem?.mp hz
    rw [hj j] at hzj
    cases hxj : x[j]? with
    | none => simp [hxj] at hzj
    | some xj =>
      obtain ⟨mp, ep, hp⟩ := prevAt_fin n x j
      obtain ⟨v, hv, hr⟩ := emphasizeSample_fin ma ea mp ep xj
      simp only [hxj, Option.bind, hp, hv, Option.some.injEq] at hzj
      rw [← hzj]
      exact hr
  · rw [hj i, hxi]
    exact F32.toInt16_clamp_of_gt _ h
  · rw [hj i, hxi]
    exact F32.toInt16_clamp_of_lt _ h

/-- Witness of C4: the mono buffer of the claim under `alpha = 0.97f`. -/
theorem clamping_saturates_witness :
    1 ≤ 1 ∧ ∃ y, applyPreEmphasis [32767, -32768] 1 (F32.fin 16273900 (-24)) = some y ∧
      (∀ z ∈ y, -32768 ≤ z ∧ z ≤ 32767) ∧
      (∀ i xi, [32767, -32768][i]? = some xi →
        (F32.lt (F32.fin 32767 0)
            (rawEmphasis (F32.fin 16273900 (-24)) (prevAt 1 [32767, -32768] i) xi) = true →
          y[i]? = some 32767) ∧
        (F32.lt (rawEmphasis (F32.fin 16273900 (-24)) (prevAt 1 [32767, -32768] i) xi)
            (F32.fin (-32768) 0) = true →
          y[i]? = some (-32768))) ∧
      applyPreEmphasis [32767, -32768] 1 alpha097 = some [32767, -32768] :=
  ⟨by decide, clamping_saturates [32767, -32768] 1 16273900 (-24) (by decide)⟩

/-- C5: for a finite `alpha`, a buffer `x` of `int16_t` samples and a channel `c < n`
with `c < length(x)`, the output `y` of `applyPreEmphasis` has `y[c] = x[c]`. -/
theorem first_sample_unchanged (x : List Int) (n c : Nat) (ma ea : Int)
    (hx : ∀ z ∈ x, -32768 ≤ z ∧ z ≤ 32767) (hc : c < n) (hcl : c < x.length) :
    ∃ y, applyPreEmphasis x n (F32.fin ma ea) = some y ∧ y[c]? = some x[c] := by
  obtain ⟨y, hy⟩ := applyPreEmphasis_total x n ma ea (by omega)
  obtain ⟨_, hj⟩ := applyPreEmphasis_sound x y n _ (by omega) hy
  have hxc : x[c]? = some x[c] := List.getElem?_eq_getElem hcl
  have hr := hx x[c] (List.getElem_mem hcl)
  have hyc : y[c]? = some x[c] := by
    rw [hj c, hxc]
    have hp : prevAt n x c = F32.fin 0 0 := by
      unfold prevAt; rw [if_pos hc]
    simp only [Option.bind, hp]
    exact emphasizeSample_prev_zero ma ea x[c] hr.1 hr.2
  exact ⟨y, hy, hyc⟩

/-- Witness of C5: channel 1 of a stereo buffer under `alpha = 0.97f`. -/
theorem first_sample_unchanged_witness :
    (1 < 2 ∧ 1 < [100, -32768, 300, 32767].length) ∧
    ∃ y, applyPreEmphasis [100, -32768, 300, 32767] 2 (F32.fin 16273900 (-24)) = some y ∧
      y[1]? = some (-32768) :=
  ⟨⟨by decide, by decide⟩,
    first_sample_unchanged [100, -32768, 300, 32767] 2 1 16273900 (-24) (by decide) (by decide)
      (by decide)⟩

/-- The outcome of `readWavFile` on a file with both outer tags in place, in terms of
the chunk scan. -/
theorem readWavFile_valid_header (env : Entry) (sz rest : List Byte) (hsz : sz.length = 4) :
    readWavFile env (some (tagRIFF ++ sz ++ tagWAVE ++ rest))
      = match scanFile env (tagRIFF ++ sz ++ tagWAVE ++ rest) with
        | .error f => .undefined f
        | .ok st => finishRead env st := by
  unfold readWavFile
  simp only [readHeader_valid env sz rest hsz]
  rw [if_neg (by simp)]

/-- C6: on a file with a valid RIFF/WAVE outer header whose chunk scan found a "fmt "
block and a "data" chunk, a decoded format tag other than 1 or a decoded bit depth other
than 16 makes `readWavFile` return failure; so success implies tag 1 and 16 bits. The last
part spells the first out for a file made of the header, a "fmt " chunk and a "data"
chunk: the tag is read at offset 0 and the bit depth at offset 14 of the format block. -/
theorem rejects_unsupported_format (env : Entry) (sz rest : List Byte) (hsz : sz.length = 4) :
    (∀ st, scanFile env (tagRIFF ++ sz ++ tagWAVE ++ rest) = .ok st →
      st.sawFmt = true → st.sawData = true →
      (st.fmt.audio_format ≠ 1 ∨ st.fmt.bits_per_sample ≠ 16) →
      readWavFile env (some (tagRIFF ++ sz ++ tagWAVE ++ rest))
        = .fail (if st.fmt.audio_format ≠ 1 then Failure.invalidStructure
            else Failure.only16Bit)) ∧
    (∀ fmt D samples,
      readWavFile env (some (tagRIFF ++ sz ++ tagWAVE ++ rest)) = .ok (fmt, D, samples) →
      fmt.audio_format = 1 ∧ fmt.bits_per_sample = 16) ∧
    (∀ (body tail : List Byte) (D : Nat),
      rest = tagFmt ++ le32 body.length ++ body ++ (tagData ++ le32 D ++ tail) →
      16 ≤ body.length → body.length < 2 ^ 32 → D < 2 ^ 32 →
      (u16At body 0 ≠ 1 ∨ u16At body 14 ≠ 16) →
      readWavFile env (some (tagRIFF ++ sz ++ tagWAVE ++ rest))
        = .fail (if u16At body 0 ≠ 1 then Failure.invalidStructure else Failure.only16Bit)) := by
  have hfirst : ∀ st, scanFile env (tagRIFF ++ sz ++ tagWAVE ++ rest) = .ok st →
      st.sawFmt = true → st.sawData = true →
      (st.fmt.audio_format ≠ 1 ∨ st.fmt.bits_per_sample ≠ 16) →
      readWavFile env (some (tagRIFF ++ sz ++ tagWAVE ++ rest))
        = .fail (if st.fmt.audio_format ≠ 1 then Failure.invalidStructure
            else Failure.only16Bit) := by
    intro st hst hf hd hbad
    rw [readWavFile_valid_header env sz rest hsz]
    simp only [hst]
    unfold finishRead
    by_cases ha : st.fmt.audio_format = 1
    · have hb : st.fmt.bits_per_sample ≠ 16 := by
        rcases hbad with h | h
        · exact absurd ha h
        · exact h
      rw [if_neg (by simp [hf, hd, ha]), if_pos hb, if_neg (by simp [ha])]
    · rw [if_pos (Or.inr (Or.inr ha)), if_pos ha]
  refine ⟨hfirst, ?_, ?_⟩
  · intro fmt D samples h
    rw [readWavFile_valid_header env sz rest hsz] at h
    cases hscan : scanFile env (tagRIFF ++ sz ++ tagWAVE ++ rest) with
    | error f =>
      rw [hscan] at h
      exact absurd h (by simp)
    | ok st0 =>
      rw [hscan] at h
      change finishRead env st0 = _ at h
      unfold finishRead at h
      split at h
      · exact absurd h (by simp)
      · rename_i h1
        split at h
        · exact absurd h (by simp)
        · rename_i h2
          split at h
          · exact absurd h (by simp)
          · dsimp only at h
            split at h
            · exact absurd h (by simp)
            · simp only [Outcome.ok.injEq, Prod.mk.injEq] at h
              obtain ⟨hfmt, _, _⟩ := h
              subst hfmt
              simp only [not_or, not_not] at h1 h2
              exact ⟨h1.2.2, h2⟩
  · intro body tail D hrest h16 hF hD hbad
    subst hrest
    exact hfirst _ (scanFile_fmt_data env sz body tail body.length D hsz hF rfl h16 hD)
      rfl rfl hbad

/-- Witness of C6: a file whose format block carries tag 3 (IEEE float). -/
theorem rejects_unsupported_format_witness :
    readWavFile freshEntry (some (tagRIFF ++ le32 44 ++ tagWAVE
        ++ (tagFmt ++ le32 16 ++ floatStereoFmt ++ (tagData ++ le32 8 ++ twoFrames))))
      = .fail Failure.invalidStructure :=
  (rejects_unsupported_format freshEntry (le32 44)
      (tagFmt ++ le32 16 ++ floatStereoFmt ++ (tagData ++ le32 8 ++ twoFrames)) rfl).2.2
    floatStereoFmt twoFrames 8 rfl (by decide) (by decide) (by decide) (by decide)

/-- C7: on a file with a valid RIFF/WAVE outer header whose chunk scan runs out of
stream without meeting a "data" chunk header, or meets the "data" chunk without having
met a "fmt " chunk, `readWavFile` returns failure. The second part is the first case for
a file whose chunks are all complete and none of them "data"; the third is the second
case for a "data" chunk that follows chunks other than "fmt ". -/
theorem missing_chunk_detected (env : Entry) (sz : List Byte) (hsz : sz.length = 4) :
    (∀ (rest : List Byte) (st : ScanState),
      scanFile env (tagRIFF ++ sz ++ tagWAVE ++ rest) = .ok st →
      (st.sawData = false ∨ st.sawFmt = false) →
      readWavFile env (some (tagRIFF ++ sz ++ tagWAVE ++ rest))
        = .fail Failure.invalidStructure) ∧
    (∀ (cs : List Chunk) (tail : List Byte), (∀ c ∈ cs, c.passable) → tail.length < 8 →
      readWavFile env (some (tagRIFF ++ sz ++ tagWAVE ++ (encodeChunks cs ++ tail)))
        = .fail Failure.invalidStructure) ∧
    (∀ (cs : List Chunk) (D : Nat) (tail : List Byte), (∀ c ∈ cs, c.skippable) → D < 2 ^ 32 →
      readWavFile env (some (tagRIFF ++ sz ++ tagWAVE
          ++ (encodeChunks cs ++ (tagData ++ le32 D ++ tail))))
        = .fail Failure.invalidStructure) := by
  have hfirst : ∀ (rest : List Byte) (st : ScanState),
      scanFile env (tagRIFF ++ sz ++ tagWAVE ++ rest) = .ok st →
      (st.sawData = false ∨ st.sawFmt = false) →
      readWavFile env (some (tagRIFF ++ sz ++ tagWAVE ++ rest))
        = .fail Failure.invalidStructure := by
    intro rest st hscan hmiss
    rw [readWavFile_valid_header env sz rest hsz]
    simp only [hscan]
    unfold finishRead
    rw [if_pos]
    rcases hmiss with h | h
    · exact Or.inr (Or.inl h)
    · exact Or.inl h
  refine ⟨hfirst, ?_, ?_⟩
  · intro cs tail hpass htail
    have hfuel : cs.length
        < (tagRIFF ++ sz ++ tagWAVE ++ (encodeChunks cs ++ tail)).length + 1 := by
      have := encodeChunks_length_ge cs
      simp only [List.length_append]
      omega
    obtain ⟨st, hst, hsaw, _⟩ := scanChunks_no_data cs _
      { file := (readHeader env (tagRIFF ++ sz ++ tagWAVE ++ (encodeChunks cs ++ tail))).2.2
        fmt := env.fmt
        sawFmt := false
        sawData := false
        data_size := env.data_size } tail hpass htail hfuel
      (by rw [readHeader_valid env sz _ hsz])
    exact hfirst _ st hst (Or.inl hsaw)
  · intro cs D tail hskip hD
    obtain ⟨f, hf⟩ := scanFile_fuel sz cs (tagData ++ le32 D ++ tail)
    have hscan : scanFile env (tagRIFF ++ sz ++ tagWAVE
        ++ (encodeChunks cs ++ (tagData ++ le32 D ++ tail)))
        = .ok
          { file := ⟨tail, true⟩
            fmt := env.fmt
            sawFmt := false
            sawData := true
            data_size := D } := by
      unfold scanFile
      rw [readHeader_valid env sz _ hsz, hf,
        scanChunks_skip cs (f + 1) _ (tagData ++ le32 D ++ tail) hskip rfl,
        scanChunks_data f _ D tail rfl hD]
    exact hfirst _ _ hscan (Or.inr rfl)

/-- Witness of C7: a file that ends after its "fmt " chunk. -/
theorem missing_chunk_detected_witness :
    readWavFile freshEntry (some (tagRIFF ++ le32 28 ++ tagWAVE
        ++ (tagFmt ++ le32 16 ++ pcmStereoFmt)))
      = .fail Failure.invalidStructure :=
  (missing_chunk_detected freshEntry (le32 28) rfl).1 (tagFmt ++ le32 16 ++ pcmStereoFmt)
    ⟨⟨[], false⟩, ⟨16, pcmStereoFmt, 1, 2, 44100, 16⟩, true, false, 0⟩
    rfl (Or.inl rfl)

/-- Counterexample to C8: the "data" chunk declares 8 bytes, 4 follow, and the call
succeeds with two zero samples at the end. -/
theorem truncated_data_counterexample :
    ([1, 0, 255, 255] : List Byte).length < 8 ∧
    readWavFile freshEntry (some (tagRIFF ++ le32 40 ++ tagWAVE
        ++ (tagFmt ++ le32 16 ++ pcmStereoFmt ++ (tagData ++ le32 8 ++ [1, 0, 255, 255]))))
      = .ok (⟨16, pcmStereoFmt, 1, 2, 44100, 16⟩, 8, [1, -1, 0, 0]) := by
  decide

/-- C8, amended: on a file with a valid outer header, a PCM 16-bit "fmt " chunk with at
least one channel and a "data" chunk header declaring `data_size` bytes of which fewer
follow, `readWavFile` returns success when the bytes present fit the whole frames
allocated: `data_size` is as declared and the buffer holds the bytes present, followed by
what the resized buffer held before (zeros for an empty one). -/
theorem truncated_data_accepted (env : Entry) (sz rest : List Byte) (hsz : sz.length = 4)
    (st : ScanState) (hscan : scanFile env (tagRIFF ++ sz ++ tagWAVE ++ rest) = .ok st)
    (hf : st.sawFmt = true) (hd : st.sawData = true)
    (ha : st.fmt.audio_format = 1) (hb : st.fmt.bits_per_sample = 16)
    (hn : 1 ≤ st.fmt.num_channels)
    (htrunc : st.file.rest.length < st.data_size)
    (hfit : st.file.rest.length
      ≤ 2 * (st.data_size / (st.fmt.num_channels * 2) * st.fmt.num_channels)) :
    readWavFile env (some (tagRIFF ++ sz ++ tagWAVE ++ rest))
      = .ok (st.fmt, st.data_size,
          bytesToSamples (overwrite
            (samplesToBytes (resize 0 env.audioData
              (st.data_size / (st.fmt.num_channels * 2) * st.fmt.num_channels)))
            st.file.rest)) := by
  rw [readWavFile_valid_header env sz rest hsz]
  simp only [hscan]
  obtain ⟨hgood, hD⟩ := scanChunks_data_inv _ _ st hscan rfl hd
  have htake : List.take st.data_size st.file.rest = st.file.rest :=
    List.take_of_length_le (le_of_lt htrunc)
  have h := finishRead_ok env st hf hd ha hb hn hgood hD (by rw [htake]; exact hfit)
  rw [htake] at h
  exact h

/-- Witness of C8, amended: the file of the counterexample. -/
theorem truncated_data_accepted_witness :
    readWavFile freshEntry (some (tagRIFF ++ le32 40 ++ tagWAVE
        ++ (tagFmt ++ le32 16 ++ pcmStereoFmt ++ (tagData ++ le32 8 ++ [1, 0, 255, 255]))))
      = .ok (⟨16, pcmStereoFmt, 1, 2, 44100, 16⟩, 8,
          bytesToSamples (overwrite
            (samplesToBytes (resize 0 freshEntry.audioData (8 / (2 * 2) * 2)))
            [1, 0, 255, 255])) :=
  truncated_data_accepted freshEntry (le32 40)
    (tagFmt ++ le32 16 ++ pcmStereoFmt ++ (tagData ++ le32 8 ++ [1, 0, 255, 255])) rfl
    ⟨⟨[1, 0, 255, 255], true⟩, ⟨16, pcmStereoFmt, 1, 2, 44100, 16⟩, true, true, 8⟩
    rfl rfl rfl rfl rfl (by decide) (by decide) (by decide)

/-! ### The writer -/

theorem int16Bytes_eq (z : Int) :
    int16Bytes z = [byte (z % 256).toNat, byte ((z / 256) % 256).toNat] := by
  unfold int16Bytes le16 byte
  simp only [List.cons.injEq, Fin.mk.injEq, and_true]
  omega

theorem samplesToBytes_eq_flatMap (s : List Int) :
    samplesToBytes s
      = s.flatMap (fun z => [byte (z % 256).toNat, byte ((z / 256) % 256).toNat]) := by
  induction s with
  | nil => rfl
  | cons z zs ih =>
    simp only [samplesToBytes, List.flatMap_cons, ih, int16Bytes_eq]

/-- The bytes `writeWavFile` emits when the file opens and `fmt.data` holds `fmt_size`
bytes. -/
theorem writeWavFile_ok (fmt : FmtChunk) (s : List Int) (h : fmt.fmt_size ≤ fmt.data.length) :
    writeWavFile true fmt s
      = .ok (tagRIFF ++ le32 ((4 + 8 + fmt.fmt_size + 8 + (s.length * 2) % 2 ^ 32) % 2 ^ 32)
          ++ tagWAVE ++ tagFmt ++ le32 fmt.fmt_size ++ fmt.data.take fmt.fmt_size
          ++ tagData ++ le32 ((s.length * 2) % 2 ^ 32)
          ++ (samplesToBytes s).take ((s.length * 2) % 2 ^ 32)) := by
  unfold writeWavFile
  rw [if_neg (by simp), if_neg (by omega)]

/-- C9: for a descriptor whose raw bytes have length `fmt_size` and a buffer `s` with
`2 * length(s) < 2 ^ 32`, `writeWavFile` emits exactly "RIFF", the outer size, "WAVE",
"fmt ", `fmt_size`, the raw bytes, "data", `2 * length(s)` and the samples in order, each
as two little-endian two's-complement bytes (sizes as 4 little-endian bytes). -/
theorem writer_byte_layout (fmt : FmtChunk) (s : List Int)
    (hlen : fmt.data.length = fmt.fmt_size) (hs : 2 * s.length < 2 ^ 32) :
    writeWavFile true fmt s
      = .ok (tagRIFF ++ le32 (4 + 8 + fmt.fmt_size + 8 + 2 * s.length) ++ tagWAVE
          ++ tagFmt ++ le32 fmt.fmt_size ++ fmt.data
          ++ tagData ++ le32 (2 * s.length)
          ++ s.flatMap (fun z => [byte (z % 256).toNat, byte ((z / 256) % 256).toNat])) := by
  rw [writeWavFile_ok fmt s (by omega)]
  have hds : (s.length * 2) % 2 ^ 32 = 2 * s.length := by
    rw [Nat.mul_comm]; exact Nat.mod_eq_of_lt hs
  rw [hds, le32_mod, List.take_of_length_le (by omega),
    List.take_of_length_le (by rw [samplesToBytes_length]), samplesToBytes_eq_flatMap]

/-- Witness of C9: the stereo descriptor and the samples 1, -1, -32768, 32767. -/
theorem writer_byte_layout_witness :
    writeWavFile true ⟨16, pcmStereoFmt, 1, 2, 44100, 16⟩ [1, -1, -32768, 32767]
      = .ok (tagRIFF ++ le32 (4 + 8 + 16 + 8 + 2 * 4) ++ tagWAVE
          ++ tagFmt ++ le32 16 ++ pcmStereoFmt
          ++ tagData ++ le32 (2 * 4)
          ++ [1, 0, 255, 255, 0, 128, 255, 127]) :=
  writer_byte_layout ⟨16, pcmStereoFmt, 1, 2, 44100, 16⟩ [1, -1, -32768, 32767] rfl (by decide)

/-- C10: in the output of `writeWavFile` the data-size field is `2 * length(s)` and the
outer size field is `4 + 8 + fmt_size + 8 + 2 * length(s)`, both as 32-bit unsigned
values; when the raw bytes have length `fmt_size` and that sum is below `2 ^ 32`, the outer
size field is the number of bytes that follow it. -/
theorem size_fields_consistent (fmt : FmtChunk) (s : List Int)
    (h : fmt.fmt_size ≤ fmt.data.length) :
    ∃ out, writeWavFile true fmt s = .ok out ∧
      leVal ((out.drop (24 + fmt.fmt_size)).take 4) = (2 * s.length) % 2 ^ 32 ∧
      leVal ((out.drop 4).take 4) = (4 + 8 + fmt.fmt_size + 8 + 2 * s.length) % 2 ^ 32 ∧
      (fmt.data.length = fmt.fmt_size → 4 + 8 + fmt.fmt_size + 8 + 2 * s.length < 2 ^ 32 →
        leVal ((out.drop 4).take 4) = out.length - 8) := by
  refine ⟨_, writeWavFile_ok fmt s h, ?_, ?_, ?_⟩
  · have hP : (tagRIFF ++ le32 ((4 + 8 + fmt.fmt_size + 8 + (s.length * 2) % 2 ^ 32) % 2 ^ 32)
        ++ tagWAVE ++ tagFmt ++ le32 fmt.fmt_size ++ fmt.data.take fmt.fmt_size
        ++ tagData).length = 24 + fmt.fmt_size := by
      simp only [List.length_append, le32_length, List.length_take, tagRIFF, tagWAVE, tagFmt,
        tagData, List.length_cons, List.length_nil]
      omega
    rw [List.append_assoc _ (le32 _) _, List.drop_left' hP, List.take_left' (le32_length _),
      leVal_le32]
    omega
  · have hassoc : ∀ (a b c d e f g h i : List Byte),
        a ++ b ++ c ++ d ++ e ++ f ++ g ++ h ++ i = a ++ (b ++ (c ++ d ++ e ++ f ++ g ++ h ++ i)) := by
      intros; simp only [List.append_assoc]
    rw [hassoc, List.drop_left' (show tagRIFF.length = 4 from rfl),
      List.take_left' (le32_length _), leVal_le32]
    omega
  · intro hlen hsum
    have hassoc : ∀ (a b c d e f g h i : List Byte),
        a ++ b ++ c ++ d ++ e ++ f ++ g ++ h ++ i = a ++ (b ++ (c ++ d ++ e ++ f ++ g ++ h ++ i)) := by
      intros; simp only [List.append_assoc]
    rw [hassoc, List.drop_left' (show tagRIFF.length = 4 from rfl),
      List.take_left' (le32_length _), leVal_le32]
    simp only [List.length_append, le32_length, List.length_take, samplesToBytes_length,
      tagRIFF, tagWAVE, tagFmt, tagData, List.length_cons, List.length_nil]
    omega

/-- Witness of C10: the stereo descriptor and four samples. -/
theorem size_fields_consistent_witness :
    (16 : Nat) ≤ pcmStereoFmt.length ∧
    ∃ out, writeWavFile true ⟨16, pcmStereoFmt, 1, 2, 44100, 16⟩ [1, -1, -32768, 32767]
        = .ok out ∧
      leVal ((out.drop (24 + 16)).take 4) = (2 * 4) % 2 ^ 32 ∧
      leVal ((out.drop 4).take 4) = (4 + 8 + 16 + 8 + 2 * 4) % 2 ^ 32 ∧
      (pcmStereoFmt.length = 16 → 4 + 8 + 16 + 8 + 2 * 4 < 2 ^ 32 →
        leVal ((out.drop 4).take 4) = out.length - 8) :=
  ⟨by decide,
    size_fields_consistent ⟨16, pcmStereoFmt, 1, 2, 44100, 16⟩ [1, -1, -32768, 32767]
      (by decide)⟩

/-- C11: for a descriptor `d` that satisfies the invariant of the data model (`data` of
length `fmt_size`, at least 16 and below `2 ^ 32`, the four fields decoded from it, format
tag 1, 16 bits, at least one channel) and a buffer `s` of `int16_t` samples whose length
is a multiple of the channel count, with `2 * length(s) < 2 ^ 32`, `readWavFile` on the
bytes `writeWavFile` emits returns `d`, `2 * length(s)` and `s`. -/
theorem write_then_read (env : Entry) (d : FmtChunk) (s : List Int)
    (hlen : d.data.length = d.fmt_size) (h16 : 16 ≤ d.fmt_size) (h32 : d.fmt_size < 2 ^ 32)
    (haf : d.audio_format = u16At d.data 0) (hnc : d.num_channels = u16At d.data 2)
    (hsr : d.sample_rate = u32At d.data 4) (hbp : d.bits_per_sample = u16At d.data 14)
    (htag : d.audio_format = 1) (hbits : d.bits_per_sample = 16) (hch : 1 ≤ d.num_channels)
    (hs : ∀ z ∈ s, -32768 ≤ z ∧ z ≤ 32767) (hmul : s.length % d.num_channels = 0)
    (hsz : 2 * s.length < 2 ^ 32) :
    ∃ out, writeWavFile true d s = .ok out ∧
      readWavFile env (some out) = .ok (d, 2 * s.length, s) := by
  refine ⟨_, writeWavFile_ok d s (by omega), ?_⟩
  have hds : (s.length * 2) % 2 ^ 32 = 2 * s.length := by
    rw [Nat.mul_comm]; exact Nat.mod_eq_of_lt hsz
  have hbytes : (samplesToBytes s).take (2 * s.length) = samplesToBytes s :=
    List.take_of_length_le (by rw [samplesToBytes_length])
  have hdata : d.data.take d.fmt_size = d.data := List.take_of_length_le (by omega)
  rw [hds, hbytes, hdata]
  have hassoc : ∀ (R : Nat), tagRIFF ++ le32 R ++ tagWAVE ++ tagFmt ++ le32 d.fmt_size ++ d.data
      ++ tagData ++ le32 (2 * s.length) ++ samplesToBytes s
      = tagRIFF ++ le32 R ++ tagWAVE
        ++ (tagFmt ++ le32 d.fmt_size ++ d.data
          ++ (tagData ++ le32 (2 * s.length) ++ samplesToBytes s)) := by
    intro R; simp only [List.append_assoc]
  rw [hassoc, readWavFile_valid_header env (le32 _) _ rfl,
    scanFile_fmt_data env (le32 _) d.data (samplesToBytes s) d.fmt_size (2 * s.length) rfl h32
      hlen h16 hsz]
  have hd : (⟨d.fmt_size, d.data, u16At d.data 0, u16At d.data 2, u32At d.data 4,
      u16At d.data 14⟩ : FmtChunk) = d := by
    cases d
    simp only [FmtChunk.mk.injEq, true_and] at *
    exact ⟨haf.symm, hnc.symm, hsr.symm, hbp.symm⟩
  simp only [hd]
  obtain ⟨q, hq⟩ := Nat.dvd_of_mod_eq_zero hmul
  have hframes : 2 * s.length / (d.num_channels * 2) * d.num_channels = s.length := by
    have h1 : 2 * s.length = d.num_channels * 2 * q := by rw [hq]; ring
    rw [h1, Nat.mul_div_cancel_left q (by omega), hq, Nat.mul_comm]
  have htake : List.take (2 * s.length) (samplesToBytes s) = samplesToBytes s := hbytes
  have hfin := finishRead_ok env
    { file := ⟨samplesToBytes s, true⟩
      fmt := d
      sawFmt := true
      sawData := true
      data_size := 2 * s.length } rfl rfl htag hbits hch rfl (show 2 * s.length < 2 ^ 32 from hsz)
    (by
      show (List.take (2 * s.length) (samplesToBytes s)).length ≤ _
      rw [htake, samplesToBytes_length, hframes])
  simp only [htake, hframes] at hfin
  rw [overwrite_full _ _ (by rw [samplesToBytes_length, samplesToBytes_length, resize_length]),
    bytesToSamples_samplesToBytes s hs] at hfin
  exact hfin

/-- Witness of C11: the stereo descriptor and two frames. -/
theorem write_then_read_witness :
    ∃ out, writeWavFile true ⟨16, pcmStereoFmt, 1, 2, 44100, 16⟩ [1, -1, -32768, 32767]
        = .ok out ∧
      readWavFile freshEntry (some out)
        = .ok (⟨16, pcmStereoFmt, 1, 2, 44100, 16⟩, 2 * 4, [1, -1, -32768, 32767]) :=
  write_then_read freshEntry ⟨16, pcmStereoFmt, 1, 2, 44100, 16⟩ [1, -1, -32768, 32767]
    rfl (by decide) (by decide) rfl rfl rfl rfl rfl rfl (by decide) (by decide) (by decide)
    (by decide)

/-- C12: in a file with a valid outer header, a chunk whose tag is neither "fmt " nor
"data", complete with its declared payload, inserted at a chunk boundary before the
"data" chunk header (behind any run of complete chunks none of which is "data") does
not change the outcome of `readWavFile`. Every accepted file is the outer header, a run
`cs` of such chunks, the "data" header and the rest; inserting the chunk at any split of
`cs` gives a file accepted with the same descriptor, `data_size` and samples. -/
theorem unknown_chunk_transparent (env : Entry) :
    (∀ (sz : List Byte) (cs : List Chunk) (c : Chunk) (rest : List Byte), sz.length = 4 →
      (∀ c1 ∈ cs, c1.passable) → c.skippable →
      readWavFile env
          (some (tagRIFF ++ sz ++ tagWAVE ++ (encodeChunks cs ++ (c.encode ++ rest))))
        = readWavFile env (some (tagRIFF ++ sz ++ tagWAVE ++ (encodeChunks cs ++ rest)))) ∧
    (∀ (bytes : List Byte) (fmt : FmtChunk) (D : Nat) (s : List Int),
      readWavFile env (some bytes) = .ok (fmt, D, s) →
      ∃ (sz : List Byte) (cs : List Chunk) (tail : List Byte),
        bytes = tagRIFF ++ sz ++ tagWAVE ++ (encodeChunks cs ++ (tagData ++ le32 D ++ tail)) ∧
        ∀ (cs1 cs2 : List Chunk) (c : Chunk), cs = cs1 ++ cs2 → c.skippable →
          readWavFile env (some (tagRIFF ++ sz ++ tagWAVE
              ++ (encodeChunks cs1
                ++ (c.encode ++ (encodeChunks cs2 ++ (tagData ++ le32 D ++ tail))))))
            = .ok (fmt, D, s)) := by
  have hA : ∀ (sz : List Byte) (cs : List Chunk) (c : Chunk) (rest : List Byte),
      sz.length = 4 → (∀ c1 ∈ cs, c1.passable) → c.skippable →
      readWavFile env
          (some (tagRIFF ++ sz ++ tagWAVE ++ (encodeChunks cs ++ (c.encode ++ rest))))
        = readWavFile env (some (tagRIFF ++ sz ++ tagWAVE ++ (encodeChunks cs ++ rest))) := by
    intro sz cs c rest hsz hcs hc
    obtain ⟨htag, hfmt, hdata, hlen⟩ := hc
    obtain ⟨fmt1, sawFmt1, hpass⟩ := scanChunks_pass cs env.fmt false false env.data_size hcs
    obtain ⟨f1, hf1⟩ := scanFile_fuel sz cs (c.encode ++ rest)
    obtain ⟨f2, hf2⟩ := scanFile_fuel sz cs rest
    have hge := encodeChunks_length_ge cs
    have hscan :
        scanFile env (tagRIFF ++ sz ++ tagWAVE ++ (encodeChunks cs ++ (c.encode ++ rest)))
          = scanFile env (tagRIFF ++ sz ++ tagWAVE ++ (encodeChunks cs ++ rest)) := by
      unfold scanFile
      rw [readHeader_valid env sz _ hsz, readHeader_valid env sz _ hsz, hf1, hf2,
        hpass (f1 + 1) (c.encode ++ rest), hpass (f2 + 1) rest,
        scanChunks_other f1 _ c.tag c.payload rest
          (by simp only [Chunk.encode, List.append_assoc]) htag hfmt hdata hlen]
      apply scanChunks_fuel
      · simp only [List.length_append, Chunk.encode, le32_length] at hf1
        show rest.length < f1
        omega
      · simp only [List.length_append] at hf2
        show rest.length < f2 + 1
        omega
    rw [readWavFile_valid_header env sz _ hsz, readWavFile_valid_header env sz _ hsz, hscan]
  refine ⟨hA, ?_⟩
  intro bytes fmt D s h
  obtain ⟨sz, cs, tail, st, hsz, hcs, hbytes, _, _, _⟩ := readWavFile_ok_shape env bytes fmt D s h
  refine ⟨sz, cs, tail, hbytes, ?_⟩
  intro cs1 cs2 c hsplit hc
  have hcs1 : ∀ c1 ∈ cs1, c1.passable := fun c1 h1 =>
    hcs c1 (by rw [hsplit]; exact List.mem_append_left cs2 h1)
  rw [hA sz cs1 c _ hsz hcs1 hc, ← List.append_assoc (encodeChunks cs1), ← encodeChunks_append,
    ← hsplit, ← hbytes]
  exact h

/-- Witness of C12: a "LIST" chunk of 3 bytes put between the "fmt " and the "data"
chunk of a stereo file. -/
theorem unknown_chunk_transparent_witness :
    readWavFile freshEntry (some (tagRIFF ++ le32 55 ++ tagWAVE
        ++ (encodeChunks [⟨tagFmt, pcmStereoFmt⟩]
          ++ ((⟨[76, 73, 83, 84], [1, 2, 3]⟩ : Chunk).encode
            ++ (tagData ++ le32 8 ++ twoFrames)))))
      = readWavFile freshEntry (some (tagRIFF ++ le32 55 ++ tagWAVE
        ++ (encodeChunks [⟨tagFmt, pcmStereoFmt⟩] ++ (tagData ++ le32 8 ++ twoFrames)))) :=
  (unknown_chunk_transparent freshEntry).1 (le32 55) [⟨tagFmt, pcmStereoFmt⟩]
    ⟨[76, 73, 83, 84], [1, 2, 3]⟩ (tagData ++ le32 8 ++ twoFrames) rfl
    (by
      intro c1 hc1
      simp only [List.mem_singleton] at hc1
      subst hc1
      exact ⟨rfl, by decide, by decide, fun _ => by decide⟩)
    ⟨rfl, by decide, by decide, by decide⟩

/-- C13: a file whose first 4 bytes are not "RIFF" or whose bytes 8-11 are not "WAVE",
files of fewer than 12 bytes included, makes `readWavFile` return failure whatever
follows and whatever the arrays `riff` and `wave` held before; with at least 12 bytes the
failure is the one of line 32. -/
theorem outer_header_validated (env : Entry) (bytes : List Byte)
    (hbad : bytes.take 4 ≠ tagRIFF ∨ (bytes.drop 8).take 4 ≠ tagWAVE) :
    (∃ e, readWavFile env (some bytes) = .fail e) ∧
    (12 ≤ bytes.length → readWavFile env (some bytes) = .fail Failure.notValidWav) := by
  have hlong : 12 ≤ bytes.length → readWavFile env (some bytes) = .fail Failure.notValidWav := by
    intro h
    unfold readWavFile
    simp only [readHeader_long env bytes h]
    rw [if_pos hbad]
  refine ⟨?_, hlong⟩
  by_cases h : 12 ≤ bytes.length
  · exact ⟨_, hlong h⟩
  · unfold readWavFile
    simp only
    split
    · exact ⟨_, rfl⟩
    · have hscan : scanFile env bytes = .ok
          { file := (readHeader env bytes).2.2
            fmt := env.fmt
            sawFmt := false
            sawData := false
            data_size := env.data_size } := by
        unfold scanFile
        exact scanChunks_failed _ _ (readHeader_short env bytes (by omega))
      rw [hscan]
      exact ⟨Failure.invalidStructure, by simp [finishRead]⟩

/-- Witness of C13: a 3-byte file read with arrays that happen to hold both tags, and a
stereo file whose second tag is "WAVe". -/
theorem outer_header_validated_witness :
    ((∃ e, readWavFile ⟨tagRIFF, tagWAVE, ⟨0, [], 0, 0, 0, 0⟩, 0, []⟩ (some [82, 73, 70])
        = .fail e) ∧
      ((12 : Nat) ≤ ([82, 73, 70] : List Byte).length →
        readWavFile ⟨tagRIFF, tagWAVE, ⟨0, [], 0, 0, 0, 0⟩, 0, []⟩ (some [82, 73, 70])
          = .fail Failure.notValidWav)) ∧
    ((∃ e, readWavFile freshEntry (some (tagRIFF ++ le32 44 ++ [87, 65, 86, 101]
        ++ (tagFmt ++ le32 16 ++ pcmStereoFmt ++ (tagData ++ le32 8 ++ twoFrames)))) = .fail e) ∧
      ((12 : Nat) ≤ (tagRIFF ++ le32 44 ++ [87, 65, 86, 101]
          ++ (tagFmt ++ le32 16 ++ pcmStereoFmt ++ (tagData ++ le32 8 ++ twoFrames))).length →
        readWavFile freshEntry (some (tagRIFF ++ le32 44 ++ [87, 65, 86, 101]
          ++ (tagFmt ++ le32 16 ++ pcmStereoFmt ++ (tagData ++ le32 8 ++ twoFrames))))
          = .fail Failure.notValidWav)) :=
  ⟨outer_header_validated _ [82, 73, 70] (Or.inl (by decide)),
    outer_header_validated freshEntry _ (Or.inr (by decide))⟩

/-- C14, evaluated: a file whose "fmt " block declares 0 channels (PCM, 16 bits) is not
rejected; line 69 divides `data_size` by `0 * sizeof(int16_t)`. -/
theorem zero_channels_divide_by_zero :
    u16At zeroChannelFmt 2 = 0 ∧
    readWavFile freshEntry (some (tagRIFF ++ le32 44 ++ tagWAVE
        ++ (tagFmt ++ le32 16 ++ zeroChannelFmt ++ (tagData ++ le32 8 ++ twoFrames))))
      = .undefined Fault.divisionByZero := by
  decide

/-- Counterexample to C15: the "data" chunk of a mono file declares 4 bytes and 1 byte
follows; the call succeeds with the samples 5 and 0, although the payload bytes 1, 2 and
3 that entries 0 and 1 would decode do not exist. -/
theorem sample_content_counterexample :
    readWavFile freshEntry (some (tagRIFF ++ le32 37 ++ tagWAVE
        ++ (tagFmt ++ le32 16 ++ pcmMonoFmt ++ (tagData ++ le32 4 ++ [5]))))
      = .ok (⟨16, pcmMonoFmt, 1, 1, 44100, 16⟩, 4, [5, 0]) ∧
    ¬ (∀ k, k < ([5, 0] : List Int).length →
        ∃ b0 b1 : Byte, ([5] : List Byte)[2 * k]? = some b0 ∧
          ([5] : List Byte)[2 * k + 1]? = some b1 ∧
          ([5, 0] : List Int)[k]? = some (toSigned16 (b0.val + 256 * b1.val))) := by
  refine ⟨by decide, fun h => ?_⟩
  obtain ⟨b0, b1, _, h1, _⟩ := h 0 (by decide)
  simp at h1

/-- C15, amended: when `readWavFile` returns success with `n` channels and `data_size`
`D`, the file is the outer header, complete chunks, the "data" header declaring `D` and
the bytes `tail` behind it; the buffer has exactly `(D / (2 * n)) * n` samples, a multiple
of `n` that takes at most `D` bytes, and entry `k` is the signed little-endian value of
the bytes `2 * k` and `2 * k + 1` of `tail` whenever both are present. -/
theorem sample_buffer_shape (env : Entry) (bytes : List Byte) (fmt : FmtChunk) (D : Nat)
    (s : List Int) (h : readWavFile env (some bytes) = .ok (fmt, D, s)) :
    ∃ (sz : List Byte) (cs : List Chunk) (tail : List Byte),
      bytes = tagRIFF ++ sz ++ tagWAVE ++ (encodeChunks cs ++ (tagData ++ le32 D ++ tail)) ∧
      1 ≤ fmt.num_channels ∧
      s.length = D / (2 * fmt.num_channels) * fmt.num_channels ∧
      s.length % fmt.num_channels = 0 ∧ 2 * s.length ≤ D ∧
      ∀ (k : Nat) (b0 b1 : Byte), k < s.length → tail[2 * k]? = some b0 →
        tail[2 * k + 1]? = some b1 → s[k]? = some (toSigned16 (b0.val + 256 * b1.val)) := by
  obtain ⟨sz, cs, tail, st, _, _, hbytes, hscan, hfile, hfin⟩ :=
    readWavFile_ok_shape env bytes fmt D s h
  obtain ⟨_, hsd, _, _, hn, hfmt, hD, hfit, hs⟩ := finishRead_ok_inv env st fmt D s hfin
  have hscan' := hscan
  unfold scanFile at hscan'
  obtain ⟨_, hD32⟩ := scanChunks_data_inv _ _ st hscan' rfl hsd
  rw [← hfmt, ← hD] at hfit hs
  rw [← hfmt] at hn
  rw [← hD] at hD32
  have hle := frames_mul_le D fmt.num_channels
  have hmod : (D / (fmt.num_channels * 2) * fmt.num_channels) % 2 ^ 32
      = D / (fmt.num_channels * 2) * fmt.num_channels := Nat.mod_eq_of_lt (by omega)
  have hread : (st.file.read D).1 = tail.take D := by
    rw [hfile]; simp [IStream.read]
  rw [hmod, hread] at hfit hs
  have hcomm : D / (2 * fmt.num_channels) = D / (fmt.num_channels * 2) := by
    rw [Nat.mul_comm]
  have hslen : s.length = D / (fmt.num_channels * 2) * fmt.num_channels := by
    rw [hs, bytesToSamples_length, overwrite_length _ _ (by
      rw [samplesToBytes_length, resize_length]; exact hfit),
      samplesToBytes_length, resize_length]
    omega
  refine ⟨sz, cs, tail, hbytes, hn, by rw [hcomm]; exact hslen, ?_, ?_, ?_⟩
  · rw [hslen]; exact Nat.mul_mod_left _ _
  · have h2 : D / (fmt.num_channels * 2) * (fmt.num_channels * 2) ≤ D :=
      Nat.div_mul_le_self D (fmt.num_channels * 2)
    rw [hslen]
    calc 2 * (D / (fmt.num_channels * 2) * fmt.num_channels)
        = D / (fmt.num_channels * 2) * (fmt.num_channels * 2) := by ring
      _ ≤ D := h2
  · intro k b0 b1 hk h0 h1
    have h2 : D / (fmt.num_channels * 2) * (fmt.num_channels * 2) ≤ D :=
      Nat.div_mul_le_self D (fmt.num_channels * 2)
    have hkD : 2 * k + 1 < D := by
      have : 2 * (D / (fmt.num_channels * 2) * fmt.num_channels)
          = D / (fmt.num_channels * 2) * (fmt.num_channels * 2) := by ring
      omega
    have hl1 : 2 * k + 1 < tail.length := by
      rcases List.getElem?_eq_some.mp h1 with ⟨hlt, _⟩
      exact hlt
    have hgot : ∀ i, i < D → i < tail.length →
        (overwrite (samplesToBytes (resize 0 env.audioData
          (D / (fmt.num_channels * 2) * fmt.num_channels))) (tail.take D))[i]? = tail[i]? := by
      intro i hi hit
      unfold overwrite
      rw [List.getElem?_append_left (by simp only [List.length_take]; omega),
        List.getElem?_take_of_lt hi]
    rw [hs]
    exact bytesToSamples_getElem? k _ b0 b1
      (by rw [hgot (2 * k) (by omega) (by omega)]; exact h0)
      (by rw [hgot (2 * k + 1) hkD hl1]; exact h1)

/-- Witness of C15, amended: the mono file of the counterexample. -/
theorem sample_buffer_shape_witness :
    ∃ (sz : List Byte) (cs : List Chunk) (tail : List Byte),
      tagRIFF ++ le32 37 ++ tagWAVE ++ (tagFmt ++ le32 16 ++ pcmMonoFmt ++ (tagData ++ le32 4 ++ [5]))
        = tagRIFF ++ sz ++ tagWAVE ++ (encodeChunks cs ++ (tagData ++ le32 4 ++ tail)) ∧
      1 ≤ (⟨16, pcmMonoFmt, 1, 1, 44100, 16⟩ : FmtChunk).num_channels ∧
      ([5, 0] : List Int).length
        = 4 / (2 * (⟨16, pcmMonoFmt, 1, 1, 44100, 16⟩ : FmtChunk).num_channels)
          * (⟨16, pcmMonoFmt, 1, 1, 44100, 16⟩ : FmtChunk).num_channels ∧
      ([5, 0] : List Int).length % (⟨16, pcmMonoFmt, 1, 1, 44100, 16⟩ : FmtChunk).num_channels
        = 0 ∧
      2 * ([5, 0] : List Int).length ≤ 4 ∧
      ∀ (k : Nat) (b0 b1 : Byte), k < ([5, 0] : List Int).length → tail[2 * k]? = some b0 →
        tail[2 * k + 1]? = some b1 →
        ([5, 0] : List Int)[k]? = some (toSigned16 (b0.val + 256 * b1.val)) :=
  sample_buffer_shape freshEntry _ ⟨16, pcmMonoFmt, 1, 1, 44100, 16⟩ 4 [5, 0] (by decide)

/-- A read that succeeds hands on a descriptor and a buffer on which neither the filter
nor the writer leaves defined behaviour. -/
theorem after_read_defined (env : Entry) (input : Option (List Byte)) (fmt : FmtChunk)
    (D : Nat) (s : List Int) (h : readWavFile env input = .ok (fmt, D, s)) :
    (∃ filtered, applyPreEmphasis s fmt.num_channels alpha097 = some filtered) ∧
      fmt.fmt_size ≤ fmt.data.length := by
  cases input with
  | none => exact absurd h (by simp [readWavFile])
  | some bytes =>
    obtain ⟨_, _, st, hscan, hfin⟩ := readWavFile_ok_inv env bytes fmt D s h
    obtain ⟨hsf, _, _, _, hn, hfmt, _, _, _⟩ := finishRead_ok_inv env st fmt D s hfin
    unfold scanFile at hscan
    obtain ⟨hlen, _⟩ := scanChunks_fmt_inv _ _ st hscan rfl hsf
    rw [← hfmt] at hlen hn
    exact ⟨applyPreEmphasis_total s fmt.num_channels 16273900 (-24) hn, by omega⟩

/-- C16: `main` returns 1 exactly when `readWavFile` fails, and then writes no output;
it returns 2 exactly when the read succeeds and `writeWavFile` fails, and 0 exactly when
both succeed; after a successful read the filter runs with `alpha = 0.97f` and the
channel count of the descriptor, and the writer gets the descriptor as read and the
filtered buffer, and neither of them leaves defined behaviour. -/
theorem pipeline_status (env : Entry) (input : Option (List Byte)) (canOpenOut : Bool) :
    (Program.main env input canOpenOut = .ok (1, none) ↔
      ∃ e, readWavFile { env with fmt := { env.fmt with data := [] }, audioData := [] } input
        = .fail e) ∧
    (Program.main env input canOpenOut = .ok (2, none) ↔
      ∃ fmt D s filtered e,
        readWavFile { env with fmt := { env.fmt with data := [] }, audioData := [] } input
          = .ok (fmt, D, s) ∧
        applyPreEmphasis s fmt.num_channels alpha097 = some filtered ∧
        writeWavFile canOpenOut fmt filtered = .fail e) ∧
    (∀ out, Program.main env input canOpenOut = .ok (0, some out) ↔
      ∃ fmt D s filtered,
        readWavFile { env with fmt := { env.fmt with data := [] }, audioData := [] } input
          = .ok (fmt, D, s) ∧
        applyPreEmphasis s fmt.num_channels alpha097 = some filtered ∧
        writeWavFile canOpenOut fmt filtered = .ok out) ∧
    (∀ status out, Program.main env input canOpenOut = .ok (status, out) →
      (status = 1 ∧ out = none) ∨ (status = 2 ∧ out = none) ∨
        (status = 0 ∧ ∃ bytes, out = some bytes)) ∧
    (∀ fmt D s,
      readWavFile { env with fmt := { env.fmt with data := [] }, audioData := [] } input
        = .ok (fmt, D, s) →
      ∃ filtered, applyPreEmphasis s fmt.num_channels alpha097 = some filtered ∧
        ((canOpenOut = false ∧ Program.main env input canOpenOut = .ok (2, none)) ∨
          (canOpenOut = true ∧ ∃ out, writeWavFile true fmt filtered = .ok out ∧
            Program.main env input canOpenOut = .ok (0, some out)))) := by
  unfold Program.main
  cases hr : readWavFile { env with fmt := { env.fmt with data := [] }, audioData := [] } input with
  | fail e => simp
  | undefined f => simp
  | ok r =>
    obtain ⟨fmt, D, s⟩ := r
    obtain ⟨⟨filtered, hfil⟩, hlen⟩ := after_read_defined _ input fmt D s hr
    simp only [hfil]
    cases canOpenOut with
    | false =>
      have hw : ∀ f x, writeWavFile false f x = .fail Failure.cannotOpenToWrite := by
        intro f x; simp [writeWavFile]
      simp only [hw]
      refine ⟨?_, ?_, ?_, ?_, ?_⟩
      · constructor
        · intro h; exact absurd h (by simp)
        · rintro ⟨e, he⟩; exact absurd he (by simp)
      · constructor
        · intro _; exact ⟨fmt, D, s, filtered, _, rfl, hfil, rfl⟩
        · intro _; trivial
      · intro out
        constructor
        · intro h; exact absurd h (by simp)
        · rintro ⟨_, _, _, _, _, _, he⟩; exact absurd he (by simp)
      · intro status out h
        simp only [Except.ok.injEq, Prod.mk.injEq] at h
        exact Or.inr (Or.inl ⟨h.1.symm, h.2.symm⟩)
      · intro fmt1 D1 s1 h
        simp only [Outcome.ok.injEq, Prod.mk.injEq] at h
        obtain ⟨h1, _, h3⟩ := h
        subst h1 h3
        exact ⟨filtered, hfil, Or.inl ⟨by first | rfl | trivial, by first | rfl | trivial⟩⟩
    | true =>
      have hw := writeWavFile_ok fmt filtered hlen
      simp only [hw]
      refine ⟨?_, ?_, ?_, ?_, ?_⟩
      · constructor
        · intro h; exact absurd h (by simp)
        · rintro ⟨e, he⟩; exact absurd he (by simp)
      · constructor
        · intro h; exact absurd h (by simp)
        · rintro ⟨fmt1, D1, s1, filtered1, e, h1, h2, h3⟩
          simp only [Outcome.ok.injEq, Prod.mk.injEq] at h1
          obtain ⟨h1, _, h4⟩ := h1
          subst h1 h4
          rw [hfil] at h2
          simp only [Option.some.injEq] at h2
          subst h2
          rw [hw] at h3
          exact absurd h3 (by simp)
      · intro out
        constructor
        · intro h
          simp only [Except.ok.injEq, Prod.mk.injEq, Option.some.injEq, true_and] at h
          exact ⟨fmt, D, s, filtered, rfl, hfil, by rw [hw, h]⟩
        · rintro ⟨fmt1, D1, s1, filtered1, h1, h2, h3⟩
          simp only [Outcome.ok.injEq, Prod.mk.injEq] at h1
          obtain ⟨h1, _, h4⟩ := h1
          subst h1 h4
          rw [hfil] at h2
          simp only [Option.some.injEq] at h2
          subst h2
          rw [hw] at h3
          simp only [Outcome.ok.injEq] at h3
          rw [h3]
      · intro status out h
        simp only [Except.ok.injEq, Prod.mk.injEq] at h
        exact Or.inr (Or.inr ⟨h.1.symm, _, h.2.symm⟩)
      · intro fmt1 D1 s1 h
        simp only [Outcome.ok.injEq, Prod.mk.injEq] at h
        obtain ⟨h1, _, h3⟩ := h
        subst h1 h3
        exact ⟨filtered, hfil,
          Or.inr ⟨by first | rfl | trivial, _, hw, rfl⟩⟩

/-- Witness of C16: an input file that cannot be opened gives exit status 1 and no
output. -/
theorem pipeline_status_witness : Program.main freshEntry none true = .ok (1, none) :=
  (pipeline_status freshEntry none true).1.mpr ⟨Failure.cannotOpen, rfl⟩

/-- C17: when the chunk loop stands before a "fmt " chunk that declares `S >= 16` bytes
and `S` bytes follow (16 bytes `b0 .. b15` and an extension `ext`), it records
`fmt_size = S`, `data` = those `S` bytes with the extension, and the fields as the
little-endian values of bytes 0-1, 2-3, 4-7 and 14-15; behind the outer header and chunks
that are skipped, and before a "data" chunk, this is the descriptor the scan ends with and
a successful `readWavFile` returns. -/
theorem fmt_block_decoded (b0 b1 b2 b3 b4 b5 b6 b7 b8 b9 b10 b11 b12 b13 b14 b15 : Byte)
    (ext body : List Byte)
    (hbody : body = [b0, b1, b2, b3, b4, b5, b6, b7, b8, b9, b10, b11, b12, b13, b14, b15] ++ ext)
    (hS : body.length < 2 ^ 32) :
    (∀ (fuel : Nat) (st : ScanState) (rest : List Byte),
      st.file = ⟨tagFmt ++ le32 body.length ++ body ++ rest, true⟩ →
      scanChunks (fuel + 1) st = scanChunks fuel
        { st with
          file := ⟨rest, true⟩
          sawFmt := true
          fmt :=
            { fmt_size := body.length
              data := body
              audio_format := b0.val + 256 * b1.val
              num_channels := b2.val + 256 * b3.val
              sample_rate := b4.val + 256 * b5.val + 65536 * b6.val + 16777216 * b7.val
              bits_per_sample := b14.val + 256 * b15.val } }) ∧
    (∀ (env : Entry) (sz : List Byte) (cs1 cs2 : List Chunk) (D : Nat) (tail : List Byte),
      sz.length = 4 → (∀ c ∈ cs1, c.skippable) → (∀ c ∈ cs2, c.skippable) → D < 2 ^ 32 →
      scanFile env (tagRIFF ++ sz ++ tagWAVE
          ++ (encodeChunks (cs1 ++ ⟨tagFmt, body⟩ :: cs2) ++ (tagData ++ le32 D ++ tail)))
        = .ok ⟨⟨tail, true⟩,
            ⟨body.length, body, b0.val + 256 * b1.val, b2.val + 256 * b3.val,
              b4.val + 256 * b5.val + 65536 * b6.val + 16777216 * b7.val,
              b14.val + 256 * b15.val⟩, true, true, D⟩ ∧
      ∀ fmt D1 s, readWavFile env (some (tagRIFF ++ sz ++ tagWAVE
          ++ (encodeChunks (cs1 ++ ⟨tagFmt, body⟩ :: cs2) ++ (tagData ++ le32 D ++ tail))))
          = .ok (fmt, D1, s) →
        fmt = ⟨body.length, body, b0.val + 256 * b1.val, b2.val + 256 * b3.val,
          b4.val + 256 * b5.val + 65536 * b6.val + 16777216 * b7.val,
          b14.val + 256 * b15.val⟩) := by
  have h16 : 16 ≤ body.length := by
    rw [hbody]; simp only [List.length_append, List.length_cons, List.length_nil]; omega
  have haf : u16At body 0 = b0.val + 256 * b1.val := by
    rw [hbody]; simp [u16At, leVal]
  have hnc : u16At body 2 = b2.val + 256 * b3.val := by
    rw [hbody]; simp [u16At, leVal]
  have hsr : u32At body 4
      = b4.val + 256 * b5.val + 65536 * b6.val + 16777216 * b7.val := by
    rw [hbody]; simp [u32At, leVal]; omega
  have hbp : u16At body 14 = b14.val + 256 * b15.val := by
    rw [hbody]; simp [u16At, leVal]
  have hstep : ∀ (fuel : Nat) (st : ScanState) (rest : List Byte),
      st.file = ⟨tagFmt ++ le32 body.length ++ body ++ rest, true⟩ →
      scanChunks (fuel + 1) st = scanChunks fuel
        { st with
          file := ⟨rest, true⟩
          sawFmt := true
          fmt :=
            { fmt_size := body.length
              data := body
              audio_format := b0.val + 256 * b1.val
              num_channels := b2.val + 256 * b3.val
              sample_rate := b4.val + 256 * b5.val + 65536 * b6.val + 16777216 * b7.val
              bits_per_sample := b14.val + 256 * b15.val } } := by
    intro fuel st rest hfile
    rw [scanChunks_fmt fuel st body.length body rest hfile hS rfl h16, haf, hnc, hsr, hbp]
  refine ⟨hstep, ?_⟩
  intro env sz cs1 cs2 D tail hsz hcs1 hcs2 hD
  have hscan : scanFile env (tagRIFF ++ sz ++ tagWAVE
      ++ (encodeChunks (cs1 ++ ⟨tagFmt, body⟩ :: cs2) ++ (tagData ++ le32 D ++ tail)))
      = .ok ⟨⟨tail, true⟩,
          ⟨body.length, body, b0.val + 256 * b1.val, b2.val + 256 * b3.val,
            b4.val + 256 * b5.val + 65536 * b6.val + 16777216 * b7.val,
            b14.val + 256 * b15.val⟩, true, true, D⟩ := by
    have henc : encodeChunks (cs1 ++ ⟨tagFmt, body⟩ :: cs2) ++ (tagData ++ le32 D ++ tail)
        = encodeChunks cs1 ++ (tagFmt ++ le32 body.length ++ body
          ++ (encodeChunks cs2 ++ (tagData ++ le32 D ++ tail))) := by
      rw [encodeChunks_append]
      simp only [encodeChunks, Chunk.encode, List.append_assoc]
    have hge1 := encodeChunks_length_ge cs1
    have hge2 := encodeChunks_length_ge cs2
    obtain ⟨f, hf⟩ : ∃ f, (tagRIFF ++ sz ++ tagWAVE
        ++ (encodeChunks cs1 ++ (tagFmt ++ le32 body.length ++ body
          ++ (encodeChunks cs2 ++ (tagData ++ le32 D ++ tail))))).length + 1
        = (((f + 1) + cs2.length) + 1) + cs1.length := by
      refine ⟨(tagRIFF ++ sz ++ tagWAVE
        ++ (encodeChunks cs1 ++ (tagFmt ++ le32 body.length ++ body
          ++ (encodeChunks cs2 ++ (tagData ++ le32 D ++ tail))))).length
          - cs1.length - cs2.length - 1, ?_⟩
      simp only [List.length_append, le32_length]
      have : tagFmt.length = 4 := rfl
      omega
    unfold scanFile
    rw [henc, readHeader_valid env sz _ hsz, hf,
      scanChunks_skip cs1 _ _ _ hcs1 rfl, hstep _ _ _ rfl,
      scanChunks_skip cs2 _ _ _ hcs2 rfl, scanChunks_data f _ D tail rfl hD]
  refine ⟨hscan, ?_⟩
  intro fmt D1 s h
  rw [readWavFile_valid_header env sz _ hsz, hscan] at h
  obtain ⟨_, _, _, _, _, hfmt, _, _, _⟩ := finishRead_ok_inv env _ fmt D1 s h
  exact hfmt

/-- Witness of C17: an 18-byte format block, its last two bytes an extension, in a file
with a "data" chunk. -/
theorem fmt_block_decoded_witness :
    scanFile freshEntry (tagRIFF ++ le32 46 ++ tagWAVE
        ++ (encodeChunks ([] ++ ⟨tagFmt, pcmStereoFmt ++ [0, 0]⟩ :: [])
          ++ (tagData ++ le32 8 ++ twoFrames)))
      = .ok ⟨⟨twoFrames, true⟩,
          ⟨(pcmStereoFmt ++ [0, 0]).length, pcmStereoFmt ++ [0, 0],
            (1 : Byte).val + 256 * (0 : Byte).val, (2 : Byte).val + 256 * (0 : Byte).val,
            (68 : Byte).val + 256 * (172 : Byte).val + 65536 * (0 : Byte).val
              + 16777216 * (0 : Byte).val,
            (16 : Byte).val + 256 * (0 : Byte).val⟩, true, true, 8⟩ :=
  ((fmt_block_decoded 1 0 2 0 68 172 0 0 16 177 2 0 4 0 16 0 [0, 0] (pcmStereoFmt ++ [0, 0])
    rfl (by decide)).2 freshEntry (le32 46) [] [] 8 twoFrames rfl
    (fun c hc => absurd hc (List.not_mem_nil c)) (fun c hc => absurd hc (List.not_mem_nil c))
    (by decide)).1

/-- C18, evaluated: a "fmt " chunk that declares 4 bytes is not rejected; the `memcpy`
calls of lines 47 and 48 read at offsets 4 and 14 of a 4-byte vector. -/
theorem short_fmt_reads_out_of_bounds :
    readWavFile freshEntry (some (tagRIFF ++ le32 32 ++ tagWAVE
        ++ (tagFmt ++ le32 4 ++ [1, 0, 2, 0] ++ (tagData ++ le32 8 ++ twoFrames))))
      = .undefined Fault.readOutOfBounds := by
  decide

/-- C19, evaluated: a mono file whose "data" chunk declares 3 bytes, all present; the
vector is resized to `3 / 2 = 1` sample, 2 bytes, and line 71 stores 3 bytes in it. -/
theorem partial_frame_overruns_buffer :
    ¬ (3 ≤ 2 * (3 / (2 * 1)) * 1) ∧
    readWavFile freshEntry (some (tagRIFF ++ le32 39 ++ tagWAVE
        ++ (tagFmt ++ le32 16 ++ pcmMonoFmt ++ (tagData ++ le32 3 ++ [1, 2, 3]))))
      = .undefined Fault.writeOutOfBounds := by
  decide

